import Mathlib

/-!
Shallow embedding of the MLS group-state engine (mls-rs) core: the
extension lifetime check, the PSK secret derivation, the group commit
and proposal pipeline, and the TreeKEM parent-hash computation and
validation.  Byte strings are modelled as `List Nat`; the abstract
`CipherSuiteProvider` primitives (hash, MAC, KDF, signatures, HPKE)
are passed in as total functions; fallible operations return `Except`.
-/

namespace MlsSpec

/-! ## Extensions (src/extension.rs) -/

/-- Embedding of `LifetimeExt` from src/extension.rs: an inclusive validity
interval in seconds since the Unix epoch. -/
structure LifetimeExt where
  not_before : Nat
  not_after : Nat
  deriving Repr, DecidableEq

/-- Embedding of `LifetimeExt::within_lifetime`: the Rust code converts the
queried `SystemTime` to whole seconds since the Unix epoch and evaluates
`since_epoch >= self.not_before && since_epoch <= self.not_after`. -/
def within_lifetime (l : LifetimeExt) (t : Nat) : Bool :=
  decide (t ≥ l.not_before) && decide (t ≤ l.not_after)

/-! ## PSK secret derivation (src/psk.rs) -/

/-- Embedding of `JustPreSharedKeyID`: external PSK by opaque id, or a
resumption PSK naming a previous epoch. -/
inductive JustPreSharedKeyID where
  | external (id : List Nat)
  | resumption (usage : Nat) (psk_group_id : List Nat) (psk_epoch : Nat)
  deriving Repr, DecidableEq

/-- Embedding of `PreSharedKeyID`: a key id together with its nonce. -/
structure PreSharedKeyID where
  key_id : JustPreSharedKeyID
  psk_nonce : List Nat
  deriving Repr, DecidableEq

/-- Embedding of the error cases of `PskSecretError` that `psk_secret` can
produce (KDF and serialization are modelled as total functions). -/
inductive PskSecretError where
  | too_many_psk_ids (n : Nat)
  | no_psk_for_id (id : List Nat)
  | epoch_not_found (epoch : Nat)
  deriving Repr, DecidableEq

/-- ASCII bytes of the KDF label string used by `psk_secret`. -/
def derived_psk_label : List Nat :=
  [100, 101, 114, 105, 118, 101, 100, 32, 112, 115, 107]

/-- Abstract key-schedule KDF capability (`KeyScheduleKdf`, external to the
core): extract size, HKDF extract, `ExpandWithLabel`, and the TLS
serializer for `PSKLabel { id, index, count }`. -/
structure KdfEnv where
  extract_size : Nat
  extract : List Nat → List Nat → List Nat
  expand_with_label : List Nat → List Nat → List Nat → Nat → List Nat
  ser_psk_label : PreSharedKeyID → Nat → Nat → List Nat

/-- Embedding of the single fold step of `psk_secret`: resolve the PSK input
(external store or epoch resumption secret), then
`extract(expand_with_label(extract(0^n, psk), "derived psk", label, n), acc)`. -/
def psk_secret_step (env : KdfEnv) (store : List Nat → Option (List Nat))
    (get_epoch : Nat → Option (List Nat)) (count : Nat)
    (acc : List Nat) (indexed : Nat × PreSharedKeyID) :
    Except PskSecretError (List Nat) := do
  let (index, id) := indexed
  let psk ← match id.key_id with
    | .external eid =>
        match store eid with
        | some p => Except.ok p
        | none => Except.error (.no_psk_for_id eid)
    | .resumption _ _ psk_epoch =>
        match get_epoch psk_epoch with
        | some resumption_secret => Except.ok resumption_secret
        | none => Except.error (.epoch_not_found psk_epoch)
  let label_bytes := env.ser_psk_label id index count
  let psk_extracted := env.extract (List.replicate env.extract_size 0) psk
  let psk_input :=
    env.expand_with_label psk_extracted derived_psk_label label_bytes env.extract_size
  Except.ok (env.extract psk_input acc)

/-- Embedding of `psk_secret` from src/psk.rs: reject lists longer than
`u16::MAX`, then `try_fold` the enumerated PSK ids starting from a zero
buffer of the KDF extract size. -/
def psk_secret (env : KdfEnv) (store : List Nat → Option (List Nat))
    (get_epoch : Nat → Option (List Nat)) (psk_ids : List PreSharedKeyID) :
    Except PskSecretError (List Nat) :=
  let len := psk_ids.length
  if 65535 < len then Except.error (.too_many_psk_ids len)
  else psk_ids.enum.foldlM (psk_secret_step env store get_epoch len)
    (List.replicate env.extract_size 0)

/-! ## Group state machine (src/group.rs)

The aggregate `Group` state machine: proposal caching, commit generation
(`commit_proposals`), and commit processing (`process_commit`,
`process_plaintext_internal`).  External collaborators (cipher-suite
primitives, serializers, key-schedule evolution, tree-KEM path
operations) are gathered into a `GroupEnv` of total functions. -/

/-- Embedding of `KeyPackage` restricted to the fields the group pipeline
reads: an identifying payload, the credential used to verify signatures,
and the HPKE init key welcome secrets are sealed to. -/
structure KeyPackage where
  data : Nat
  credential : Nat
  hpke_init_key : List Nat
  deriving Repr, DecidableEq

/-- Embedding of `Proposal`: the tagged union over Add, Update and Remove
(PSK/ReInit/ExternalInit are not present in the source). -/
inductive Proposal where
  | add (key_package : KeyPackage)
  | update (key_package : KeyPackage)
  | remove (to_remove : Nat)
  deriving Repr, DecidableEq

/-- Embedding of `Proposal::is_update`. -/
def Proposal.is_update : Proposal → Bool
  | .update _ => true
  | _ => false

/-- Embedding of `Proposal::is_remove`. -/
def Proposal.is_remove : Proposal → Bool
  | .remove _ => true
  | _ => false

/-- Embedding of `ProposalOrRef`: an inline proposal or a hash reference. -/
inductive ProposalOrRef where
  | proposal (p : Proposal)
  | reference (id : List Nat)
  deriving Repr, DecidableEq

/-- Embedding of `PendingProposal`: a cached proposal with its sender. -/
structure PendingProposal where
  proposal : Proposal
  sender : Nat
  deriving Repr, DecidableEq

/-- Modelled from the spec: the leaf slots of the ratchet tree
(`ratchet_tree.rs` is not part of the sources).  Interior nodes are not
represented; no verified claim about this version of the tree depends on
them.  Spec: a flat vector of optional nodes, leaves at even indices. -/
structure RatchetTree where
  leaves : List (Option KeyPackage)
  deriving Repr, DecidableEq

/-- Embedding of `GroupError` (variants reachable in the embedded code;
wrapped collaborator errors are collapsed into `other`). -/
inductive GroupError where
  | cipher_suite_mismatch
  | invalid_key_package
  | missing_proposal (id : List Nat)
  | invalid_commit
  | invalid_plaintext_epoch
  | invalid_signature
  | invalid_confirmation_tag
  | invalid_tree_kem_private_key
  | welcome_key_package_not_found
  | invalid_ratchet_tree
  | ratchet_tree_error
  | other
  deriving Repr, DecidableEq

/-- Modelled from the spec: `RatchetTree::get_key_package` looks up the
key package stored at a leaf index. -/
def RatchetTree.get_key_package (t : RatchetTree) (i : Nat) :
    Except GroupError KeyPackage :=
  match t.leaves[i]? with
  | some (some kp) => Except.ok kp
  | _ => Except.error .ratchet_tree_error

/-- Modelled from the spec: `RatchetTree::update_leaf` replaces the key
package at the sender's (occupied) leaf. -/
def RatchetTree.update_leaf (t : RatchetTree) (i : Nat) (kp : KeyPackage) :
    Except GroupError RatchetTree :=
  match t.leaves[i]? with
  | some (some _) => Except.ok ⟨t.leaves.set i (some kp)⟩
  | _ => Except.error .ratchet_tree_error

/-- Index of the leftmost blank leaf slot, if any. -/
def find_blank : List (Option KeyPackage) → Option Nat
  | [] => none
  | none :: _ => some 0
  | some _ :: rest => (find_blank rest).map (· + 1)

/-- Modelled from the spec: adding one leaf fills the leftmost blank leaf
slot, or extends the tree at the right edge when all slots are occupied;
returns the occupied index. -/
def add_one (leaves : List (Option KeyPackage)) (kp : KeyPackage) :
    List (Option KeyPackage) × Nat :=
  match find_blank leaves with
  | some i => (leaves.set i (some kp), i)
  | none => (leaves ++ [some kp], leaves.length)

/-- Modelled from the spec: `RatchetTree::add_nodes` adds the key packages
in order, each to the leftmost blank leaf, returning the added leaf
indexes. -/
def RatchetTree.add_nodes (t : RatchetTree) (kps : List KeyPackage) :
    RatchetTree × List Nat :=
  let res := kps.foldl
    (fun acc kp =>
      let (ls, i) := add_one acc.1 kp
      (ls, acc.2 ++ [i]))
    (t.leaves, [])
  (⟨res.1⟩, res.2)

/-- Embedding of `RatchetTree::leaf_count` as the number of occupied
leaves. -/
def RatchetTree.leaf_count (t : RatchetTree) : Nat :=
  t.leaves.countP Option.isSome

/-- Embedding of `TreeKemPrivate` as the local leaf index plus opaque
secret material. -/
structure TreeKemPrivate where
  self_index : Nat
  secrets : Nat
  deriving Repr, DecidableEq

/-- Embedding of `GroupContext`. -/
structure GroupContext where
  group_id : List Nat
  epoch : Nat
  tree_hash : List Nat
  confirmed_transcript_hash : List Nat
  extensions : Nat
  deriving Repr, DecidableEq

/-- Embedding of `EpochKeySchedule` restricted to the confirmation key the
embedded code reads; the remaining per-epoch secrets are opaque. -/
structure EpochKeySchedule where
  confirmation_key : List Nat
  rest : Nat
  deriving Repr, DecidableEq

/-- Result of `EpochKeySchedule::evolved_from`: the new key schedule and
the joiner secret. -/
structure EvolvedKeySchedule where
  key_schedule : EpochKeySchedule
  joiner_secret : List Nat
  deriving Repr, DecidableEq

/-- Embedding of `UpdatePath` as opaque update-path data. -/
structure UpdatePath where
  data : Nat
  deriving Repr, DecidableEq

/-- Embedding of `Commit`: ordered proposals-or-refs plus optional path. -/
structure Commit where
  proposals : List ProposalOrRef
  path : Option UpdatePath
  deriving Repr, DecidableEq

/-- Embedding of `Content`: application data, a proposal, or a commit. -/
inductive Content where
  | application (data : List Nat)
  | proposal (p : Proposal)
  | commit (c : Commit)
  deriving Repr, DecidableEq

/-- Embedding of `MLSPlaintext` (sender collapsed to its member leaf
index). -/
structure MLSPlaintext where
  group_id : List Nat
  epoch : Nat
  sender : Nat
  authenticated_data : List Nat
  content : Content
  signature : List Nat
  confirmation_tag : Option (List Nat)
  membership_tag : Option (List Nat)
  deriving Repr, DecidableEq

/-- Embedding of the tree secrets recovered while processing an update
path: the new private tree (other fields opaque). -/
structure TreeSecrets where
  private_key : TreeKemPrivate
  deriving Repr, DecidableEq

/-- Embedding of `UpdatePathGeneration`: the generated update path and the
secrets that accompany it. -/
structure UpdatePathGeneration where
  update_path : UpdatePath
  secrets : TreeSecrets
  deriving Repr, DecidableEq

/-- Embedding of `KeyPackageGeneration`: a generated key package, its
hash, and opaque secret key material. -/
structure KeyPackageGeneration where
  key_package : KeyPackage
  key_package_hash : List Nat
  secret_key : Nat
  deriving Repr, DecidableEq

/-- Embedding of `ProvisionalState`: the provisional tree plus bookkeeping
produced by `apply_proposals`. -/
structure ProvisionalState where
  public_tree : RatchetTree
  leaf_update : Option KeyPackageGeneration
  added_leaves : List Nat
  path_update_required : Bool
  deriving Repr, DecidableEq

/-- Embedding of `GroupSecrets`. -/
structure GroupSecrets where
  joiner_secret : List Nat
  path_secret : Option (List Nat)
  deriving Repr, DecidableEq

/-- Embedding of `EncryptedGroupSecrets`. -/
structure EncryptedGroupSecrets where
  key_package_hash : List Nat
  encrypted_group_secrets : List Nat
  deriving Repr, DecidableEq

/-- Embedding of `GroupInfo`. -/
structure GroupInfo where
  group_id : List Nat
  epoch : Nat
  tree_hash : List Nat
  confirmed_transcript_hash : List Nat
  extensions : Nat
  confirmation_tag : List Nat
  signer_index : Nat
  signature : List Nat
  deriving Repr, DecidableEq

/-- Embedding of `Welcome`. -/
structure Welcome where
  protocol_version : Nat
  cipher_suite : Nat
  secrets : List EncryptedGroupSecrets
  encrypted_group_info : List Nat
  deriving Repr, DecidableEq

/-- Embedding of `Group`: the aggregate state.  The proposal cache and the
pending-updates map are association lists (most recent insertion first,
mirroring `HashMap` insert-replaces semantics under `assoc_get`). -/
structure Group where
  cipher_suite : Nat
  context : GroupContext
  public_tree : RatchetTree
  private_tree : TreeKemPrivate
  key_schedule : EpochKeySchedule
  interim_transcript_hash : List Nat
  proposals : List (List Nat × PendingProposal)
  pending_updates : List (List Nat × KeyPackageGeneration)
  deriving Repr, DecidableEq

/-- Embedding of `GroupStateUpdate`: the state computed by
`process_commit`, swapped in only after the confirmation tag verifies. -/
structure GroupStateUpdate where
  public_tree : RatchetTree
  private_tree : Option TreeKemPrivate
  key_schedule : EpochKeySchedule
  confirmation_tag : List Nat
  interim_transcript_hash : List Nat
  group_context : GroupContext
  deriving Repr, DecidableEq

/-- Embedding of `PendingCommit`. -/
structure PendingCommit where
  plaintext : MLSPlaintext
  update_path_data : Option UpdatePathGeneration
  welcome : Option Welcome
  deriving Repr, DecidableEq

/-- Association-list lookup, mirroring `HashMap::get`. -/
def assoc_get {α : Type} : List (List Nat × α) → List Nat → Option α
  | [], _ => none
  | (k, v) :: rest, key => if k = key then some v else assoc_get rest key

/-- External collaborators of the group pipeline: cipher-suite primitives,
serializers, transcript-hash and key-schedule derivations, and the
tree-KEM path operations from `ratchet_tree.rs` (abstract total
functions; `refresh_private_key` may fail, as HPKE open can). -/
structure GroupEnv where
  protocol_version : Nat
  hash : List Nat → List Nat
  hmac : List Nat → List Nat → List Nat
  verify : Nat → List Nat → List Nat → Bool
  sign : List Nat → List Nat
  signable : MLSPlaintext → GroupContext → List Nat
  ser_plaintext : MLSPlaintext → List Nat
  ser_key_package : KeyPackage → List Nat
  ser_context : GroupContext → List Nat
  ser_group_secrets : GroupSecrets → List Nat
  ser_group_info : GroupInfo → List Nat
  ser_content_auth : Bool → MLSPlaintext → List Nat
  sign_group_info : GroupInfo → List Nat
  welcome_encrypt : List Nat → List Nat → List Nat
  hpke_seal : List Nat → List Nat → List Nat
  get_confirmed_transcript_hash : List Nat → List Nat → List Nat
  get_interim_transcript_hash : List Nat → List Nat → List Nat
  evolved_from : EpochKeySchedule → List Nat → Nat → GroupContext → EvolvedKeySchedule
  from_update_path : Option UpdatePathGeneration → List Nat
  from_tree_secrets : Option TreeSecrets → List Nat
  tree_hash : RatchetTree → List Nat
  gen_update_path : RatchetTree → TreeKemPrivate → List Nat → List Nat → UpdatePathGeneration
  apply_update_path : RatchetTree → Nat → UpdatePath → RatchetTree
  refresh_private_key :
    RatchetTree → TreeKemPrivate → Option KeyPackageGeneration → Nat →
      UpdatePath → List Nat → List Nat → Except GroupError TreeSecrets
  get_common_path_secret : UpdatePathGeneration → Nat → Option (List Nat)
  ser_commit_content : List Nat → Nat → Nat → Commit → List Nat

/-- Short-circuiting collection of fallible results, mirroring
`collect::<Result<Vec<_>, _>>` on an iterator of `Result`s. -/
def collect_results {α β : Type} (f : α → Except GroupError β) :
    List α → Except GroupError (List β)
  | [] => Except.ok []
  | a :: rest => do
    let b ← f a
    let bs ← collect_results f rest
    Except.ok (b :: bs)

/-- Embedding of `Group::fetch_proposals`: resolve each `ProposalOrRef`,
inline values directly and references through the proposal cache. -/
def fetch_proposals (g : Group) (proposals : List ProposalOrRef) (sender : Nat) :
    Except GroupError (List PendingProposal) :=
  collect_results
    (fun p =>
      match p with
      | .proposal p => Except.ok (⟨p, sender⟩ : PendingProposal)
      | .reference id =>
        match assoc_get g.proposals id with
        | some pp => Except.ok pp
        | none => Except.error (.missing_proposal id))
    proposals

/-- Embedding of the update-application loop of `Group::apply_proposals`:
apply each Update to the provisional tree and remember the pending
key-package generation whose hash matches, if any. -/
def apply_updates (env : GroupEnv) (g : Group)
    (updates : List (Nat × KeyPackage)) :
    Except GroupError (RatchetTree × Option KeyPackageGeneration) :=
  updates.foldlM
    (fun acc su => do
      let t' ← acc.1.update_leaf su.1 su.2
      let key_package_hash := env.hash (env.ser_key_package su.2)
      let lu :=
        match assoc_get g.pending_updates key_package_hash with
        | some kg => some kg
        | none => acc.2
      Except.ok (t', lu))
    (g.public_tree, none)

/-- Embedding of `Group::apply_proposals`: fetch the proposals, apply the
Updates, then the Adds (the source skips Remove processing entirely: its
body holds only the comment `TODO: Process removes`), and report whether a
path update is required (empty proposal set, or any Update or Remove). -/
def apply_proposals (env : GroupEnv) (g : Group) (sender : Nat)
    (proposals : List ProposalOrRef) : Except GroupError ProvisionalState := do
  let fetched ← fetch_proposals g proposals sender
  let updates := fetched.filterMap fun p =>
    match p.proposal with
    | .update kp => some (p.sender, kp)
    | _ => none
  let (tree, leaf_update) ← apply_updates env g updates
  let adds := fetched.filterMap fun p =>
    match p.proposal with
    | .add kp => some kp
    | _ => none
  let (tree2, added_leaves) := tree.add_nodes adds
  let has_update_or_remove :=
    fetched.any fun p => p.proposal.is_update || p.proposal.is_remove
  let path_update_required := fetched.isEmpty || has_update_or_remove
  Except.ok ⟨tree2, leaf_update, added_leaves, path_update_required⟩

/-- Embedding of `Group::construct_mls_plaintext`: build the plaintext and
sign its signable representation under the current group context. -/
def construct_mls_plaintext (env : GroupEnv) (g : Group) (content : Content) :
    MLSPlaintext :=
  let pt : MLSPlaintext :=
    { group_id := g.context.group_id
      epoch := g.context.epoch
      sender := g.private_tree.self_index
      authenticated_data := []
      content := content
      signature := []
      confirmation_tag := none
      membership_tag := none }
  { pt with signature := env.sign (env.signable pt g.context) }

/-- Embedding of `Group::send_proposal`: frame the proposal, cache it
under the hash of the serialized plaintext, and return the updated group
with the framed message. -/
def send_proposal (env : GroupEnv) (g : Group) (proposal : Proposal) :
    Group × MLSPlaintext :=
  let plaintext := construct_mls_plaintext env g (.proposal proposal)
  let hash := env.hash (env.ser_plaintext plaintext)
  let pending : PendingProposal := ⟨proposal, g.private_tree.self_index⟩
  ({ g with proposals := (hash, pending) :: g.proposals }, plaintext)

/-- Embedding of `MLSPlaintextCommitContent`: group id, epoch, sender and
the commit itself. -/
structure MLSPlaintextCommitContent where
  group_id : List Nat
  epoch : Nat
  sender : Nat
  commit : Commit
  deriving Repr, DecidableEq

/-- Embedding of `MLSPlaintextCommitContent::try_from`: succeeds exactly
when the plaintext carries a commit. -/
def commit_content_of (pt : MLSPlaintext) :
    Except GroupError MLSPlaintextCommitContent :=
  match pt.content with
  | .commit c => Except.ok ⟨pt.group_id, pt.epoch, pt.sender, c⟩
  | _ => Except.error .other

/-- Embedding of `MLSPlaintextCommitAuthData::try_from`: succeeds exactly
when a confirmation tag is attached. -/
def auth_data_of (pt : MLSPlaintext) : Except GroupError (List Nat) :=
  match pt.confirmation_tag with
  | some tag => Except.ok tag
  | none => Except.error .other

/-- Embedding of `Group::encrypt_group_secrets`: find the added member's
common path secret (if a path was generated), and HPKE-seal the group
secrets to that member's init key. -/
def encrypt_group_secrets (env : GroupEnv) (provisional_tree : RatchetTree)
    (leaf_index : Nat) (joiner_secret : List Nat)
    (update_path : Option UpdatePathGeneration) :
    Except GroupError EncryptedGroupSecrets := do
  let path_secret := update_path.bind fun up =>
    env.get_common_path_secret up leaf_index
  if path_secret = none ∧ update_path ≠ none then
    Except.error .invalid_tree_kem_private_key
  else
    let group_secrets : GroupSecrets := ⟨joiner_secret, path_secret⟩
    let key_package ← provisional_tree.get_key_package leaf_index
    let key_package_hash := env.hash (env.ser_key_package key_package)
    let encrypted :=
      env.hpke_seal key_package.hpke_init_key (env.ser_group_secrets group_secrets)
    Except.ok ⟨key_package_hash, encrypted⟩

/-- Embedding of `Group::commit_proposals`: gather cached proposals (by
reference) plus the caller's (by value), apply them provisionally, enforce
the path-required rule, optionally build and apply an update path, advance
the provisional context and key schedule, attach the confirmation tag, and
build the welcome for added members. -/
def commit_proposals (env : GroupEnv) (g : Group) (proposals : List Proposal)
    (update_path : Bool) : Except GroupError PendingCommit := do
  let proposals_or :=
    (g.proposals.map fun kv => ProposalOrRef.reference kv.1) ++
      (proposals.map fun p => ProposalOrRef.proposal p)
  let provisional ← apply_proposals env g g.private_tree.self_index proposals_or
  if provisional.path_update_required ∧ update_path = false then
    Except.error .invalid_commit
  else
    let update_path_gen : Option UpdatePathGeneration :=
      if update_path then
        some (env.gen_update_path provisional.public_tree g.private_tree
          (env.ser_context g.context) provisional.added_leaves)
      else none
    let tree2 :=
      match update_path_gen with
      | none => provisional.public_tree
      | some upg =>
        env.apply_update_path provisional.public_tree g.private_tree.self_index
          upg.update_path
    let commit_secret := env.from_update_path update_path_gen
    let commit : Commit :=
      ⟨proposals_or, update_path_gen.map fun up => up.update_path⟩
    let plaintext := construct_mls_plaintext env g (.commit commit)
    let plaintext_data ← commit_content_of plaintext
    let confirmed := env.get_confirmed_transcript_hash g.interim_transcript_hash
      (env.ser_commit_content plaintext_data.group_id plaintext_data.epoch
        plaintext_data.sender plaintext_data.commit)
    let ctx2 : GroupContext :=
      { g.context with
          epoch := g.context.epoch + 1
          tree_hash := env.tree_hash tree2
          confirmed_transcript_hash := confirmed }
    let new_key_schedule :=
      env.evolved_from g.key_schedule commit_secret tree2.leaf_count ctx2
    let confirmation_tag :=
      env.hmac new_key_schedule.key_schedule.confirmation_key
        ctx2.confirmed_transcript_hash
    let plaintext2 := { plaintext with confirmation_tag := some confirmation_tag }
    let group_info : GroupInfo :=
      { group_id := g.context.group_id
        epoch := ctx2.epoch
        tree_hash := ctx2.tree_hash
        confirmed_transcript_hash := ctx2.confirmed_transcript_hash
        extensions := g.context.extensions
        confirmation_tag := confirmation_tag
        signer_index := g.private_tree.self_index
        signature := [] }
    let group_info2 :=
      { group_info with signature := env.sign_group_info group_info }
    let encrypted_group_info :=
      env.welcome_encrypt new_key_schedule.joiner_secret
        (env.ser_group_info group_info2)
    let secrets ← collect_results
      (fun i =>
        encrypt_group_secrets env tree2 i new_key_schedule.joiner_secret
          update_path_gen)
      provisional.added_leaves
    let welcome :=
      if secrets.isEmpty then none
      else some (Welcome.mk env.protocol_version g.cipher_suite secrets
        encrypted_group_info)
    Except.ok ⟨plaintext2, update_path_gen, welcome⟩

/-- Embedding of `Group::process_commit`: apply the commit's proposals to
a provisional tree, enforce the path-required rule, recover the update
path secrets (local pending ones when processing one's own commit),
advance the provisional context and key schedule, and recompute the
confirmation tag.  This function reads the current state and returns the
candidate next state without mutating anything. -/
def process_commit (env : GroupEnv) (g : Group) (sender : Nat)
    (local_pending : Option UpdatePathGeneration)
    (commit_content : MLSPlaintextCommitContent) (auth_data_tag : List Nat) :
    Except GroupError GroupStateUpdate := do
  let provisional ←
    apply_proposals env g sender commit_content.commit.proposals
  if provisional.path_update_required ∧ commit_content.commit.path = none then
    Except.error .invalid_commit
  else
    let step : Except GroupError (RatchetTree × Option TreeSecrets) :=
      match commit_content.commit.path with
      | none => Except.ok (provisional.public_tree, none)
      | some update_path =>
        (match local_pending with
         | some pending => Except.ok pending.secrets
         | none =>
           env.refresh_private_key provisional.public_tree g.private_tree
             provisional.leaf_update sender update_path
             provisional.added_leaves
             (env.ser_context g.context)).map
          fun secrets =>
            (env.apply_update_path provisional.public_tree sender update_path,
              some secrets)
    let (tree2, updated_secrets) ← step
    let commit_secret := env.from_tree_secrets updated_secrets
    let confirmed := env.get_confirmed_transcript_hash g.interim_transcript_hash
      (env.ser_commit_content commit_content.group_id commit_content.epoch
        commit_content.sender commit_content.commit)
    let interim := env.get_interim_transcript_hash confirmed auth_data_tag
    let ctx2 : GroupContext :=
      { g.context with
          epoch := g.context.epoch + 1
          confirmed_transcript_hash := confirmed
          tree_hash := env.tree_hash tree2 }
    let new_epoch :=
      env.evolved_from g.key_schedule commit_secret tree2.leaf_count ctx2
    let confirmation_tag :=
      env.hmac new_epoch.key_schedule.confirmation_key
        ctx2.confirmed_transcript_hash
    Except.ok
      { public_tree := tree2
        private_tree := updated_secrets.map fun us => us.private_key
        key_schedule := new_epoch.key_schedule
        confirmation_tag := confirmation_tag
        interim_transcript_hash := interim
        group_context := ctx2 }

/-- Embedding of `Group::process_plaintext_internal`: check the epoch
against the current context, verify the sender's signature, then dispatch
on the content.  A commit is processed into a candidate state, the
attached confirmation tag is compared with the recomputed one, and only
then is the new state swapped in and are both caches cleared.  The
function returns the (possibly unchanged) group state together with the
result, mirroring `&mut self` plus `Result`. -/
def process_plaintext_internal (env : GroupEnv) (g : Group)
    (plaintext : MLSPlaintext) (local_pending : Option UpdatePathGeneration) :
    Group × Except GroupError (Option (List Nat)) :=
  if plaintext.epoch ≠ g.context.epoch then
    (g, Except.error .invalid_plaintext_epoch)
  else
    match g.public_tree.get_key_package plaintext.sender with
    | .error e => (g, .error e)
    | .ok sender_kp =>
      if env.verify sender_kp.credential plaintext.signature
          (env.signable plaintext g.context) = false then
        (g, .error .invalid_signature)
      else
        match plaintext.content with
        | .application content => (g, .ok (some content))
        | .proposal p =>
          let hash := env.hash (env.ser_plaintext plaintext)
          ({ g with proposals := (hash, ⟨p, plaintext.sender⟩) :: g.proposals },
            .ok none)
        | .commit _ =>
          match commit_content_of plaintext with
          | .error e => (g, .error e)
          | .ok commit_content =>
            match auth_data_of plaintext with
            | .error e => (g, .error e)
            | .ok tag =>
              match process_commit env g plaintext.sender local_pending
                  commit_content tag with
              | .error e => (g, .error e)
              | .ok res =>
                match plaintext.confirmation_tag with
                | none => (g, .error .invalid_confirmation_tag)
                | some t =>
                  if t ≠ res.confirmation_tag then
                    (g, .error .invalid_confirmation_tag)
                  else
                    ({ g with
                        public_tree := res.public_tree
                        private_tree := res.private_tree.getD g.private_tree
                        context := res.group_context
                        key_schedule := res.key_schedule
                        interim_transcript_hash := res.interim_transcript_hash
                        proposals := []
                        pending_updates := [] },
                      .ok none)

/-! ## Proposal hash references (src/group/proposal_ref.rs) -/

/-- Modelled from the spec: `HashReference::from_value`
(`hash_reference.rs` is not part of the sources): hash the value together
with the label and truncate to 16 bytes. -/
def hash_reference_from_value (hash : List Nat → List Nat)
    (value label : List Nat) : List Nat :=
  (hash (value ++ label)).take 16

/-- ASCII bytes of the label string used for proposal references. -/
def mls_proposal_reference_label : List Nat :=
  [77, 76, 83, 32, 49, 46, 48, 32, 80, 114, 111, 112, 111, 115, 97, 108,
    32, 82, 101, 102, 101, 114, 101, 110, 99, 101]

/-- Embedding of `ProposalRef::from_plaintext`: the hash reference over
the framed authenticated content (`MLSMessageContentAuth`, whose wire
format records whether the message was encrypted) under the proposal
reference label. -/
def proposal_ref_from_plaintext (env : GroupEnv) (encrypted : Bool)
    (plaintext : MLSPlaintext) : List Nat :=
  hash_reference_from_value env.hash (env.ser_content_auth encrypted plaintext)
    mls_proposal_reference_label


/-! ## TreeKEM parent hashes (aws-mls/src/tree_kem/parent_hash.rs)

The ratchet tree of the later code base: a flat vector of optional nodes
with cached original subtree hashes, the left-balanced tree math, node
resolution, and the parent-hash computation and validation. -/

/-- Embedding of a `Parent` node: public key, parent hash, and the ordered
unmerged-leaves set (leaf indexes). -/
structure Parent where
  public_key : List Nat
  parent_hash : List Nat
  unmerged_leaves : List Nat
  deriving Repr, DecidableEq

/-- Embedding of `LeafNodeSource`. -/
inductive LeafNodeSource where
  | key_package
  | update
  | commit (parent_hash : List Nat)
  deriving Repr, DecidableEq

/-- Embedding of a `LeafNode` restricted to the fields the parent-hash
code reads. -/
structure LeafNode where
  public_key : List Nat
  leaf_node_source : LeafNodeSource
  deriving Repr, DecidableEq

/-- Embedding of `Node`. -/
inductive Node where
  | leaf (l : LeafNode)
  | parent (p : Parent)
  deriving Repr, DecidableEq

/-- Embedding of `Node::get_parent_hash`: a parent's stored hash, or the
hash inside a leaf's `Commit` source. -/
def Node.get_parent_hash : Node → Option (List Nat)
  | .parent p => some p.parent_hash
  | .leaf l =>
    match l.leaf_node_source with
    | .commit ph => some ph
    | _ => none

/-- Embedding of `TreeKemPublic` restricted to what the parent-hash code
reads: the node vector and the cached original subtree hashes
(`tree_hashes.original`). -/
structure TreeKemPublic where
  nodes : List (Option Node)
  original_hashes : List (List Nat)
  deriving Repr, DecidableEq

/-- Embedding of `NodeVec::total_leaf_count`: `len / 2 + 1` leaf slots. -/
def total_leaf_count (t : TreeKemPublic) : Nat :=
  t.nodes.length / 2 + 1

/-- Modelled from the spec: total node count for `n` leaves is `2n - 1`
(`math.rs` is not part of the sources; the spec fixes the standard
left-balanced array tree math). -/
def node_width (n : Nat) : Nat := 2 * n - 1

/-- Fueled count of trailing one bits (structural in the fuel, which
`level` instantiates amply). -/
def level_aux : Nat → Nat → Nat
  | 0, _ => 0
  | fuel + 1, x => if x % 2 = 0 then 0 else level_aux fuel (x / 2) + 1

/-- Modelled from the spec: the level of a node index is the number of
trailing one bits. -/
def level (x : Nat) : Nat := level_aux (x + 1) x

/-- Fueled floor base-2 logarithm. -/
def log2_aux : Nat → Nat → Nat
  | 0, _ => 0
  | fuel + 1, n => if 2 ≤ n then log2_aux fuel (n / 2) + 1 else 0

/-- Modelled from the spec: one step toward the parent in the infinite
tree: a node at level `k` with an even position among level-`k` nodes is a
left child (parent `x + 2 ^ k`), otherwise a right child (parent
`x - 2 ^ k`). -/
def parent_step (x : Nat) : Nat :=
  let k := level x
  if (x / 2 ^ (k + 1)) % 2 = 0 then x + 2 ^ k else x - 2 ^ k

/-- Fueled while-loop of `parent`: step upward until the index falls
inside the tree array. -/
def parent_aux (width : Nat) : Nat → Nat → Option Nat
  | 0, _ => none
  | fuel + 1, p => if p < width then some p else parent_aux width fuel (parent_step p)

/-- Modelled from the spec: the root of the array representation for `n`
leaves. -/
def root (n : Nat) : Nat :=
  2 ^ log2_aux (node_width n + 1) (node_width n) - 1

/-- Modelled from the spec: `parent(x, n)` fails at the root, otherwise
steps upward until the index is inside the array. -/
def parent (x n : Nat) : Option Nat :=
  if x = root n then none
  else parent_aux (node_width n) (node_width n + 2) (parent_step x)

/-- Modelled from the spec: the left child of a non-leaf node. -/
def left (x : Nat) : Option Nat :=
  if level x = 0 then none else some (x - 2 ^ (level x - 1))

/-- Fueled while-loop of `right`: descend through left children until the
index falls inside the tree array. -/
def right_aux (width : Nat) : Nat → Nat → Option Nat
  | 0, _ => none
  | fuel + 1, r =>
    if r < width then some r
    else
      match left r with
      | none => none
      | some l => right_aux width fuel l

/-- Modelled from the spec: the right child of a non-leaf node in a
left-balanced (possibly incomplete) tree. -/
def right (x n : Nat) : Option Nat :=
  if level x = 0 then none
  else right_aux (node_width n) (node_width n + 2) (x + 2 ^ (level x - 1))

/-- Modelled from the spec: `sibling(x, n)` is the parent's other child. -/
def sibling (x n : Nat) : Option Nat :=
  match parent x n with
  | none => none
  | some p => if x < p then right p n else left p

/-- Embedding of `NodeVec::is_blank` (`none` encodes the out-of-bounds
error). -/
def is_blank (t : TreeKemPublic) (i : Nat) : Option Bool :=
  (t.nodes[i]?).map Option.isNone

/-- Node indexes of the non-blank leaf slots, in order
(`NodeVec::non_empty_leaves`). -/
def non_empty_leaf_nodes (t : TreeKemPublic) : List Nat :=
  ((List.range (total_leaf_count t)).filter fun li =>
    match t.nodes[2 * li]? with
    | some (some _) => true
    | _ => false).map (2 * ·)

/-- Node indexes of the non-blank parent slots (`NodeVec::non_empty_parents`),
the initial `nodes_to_validate` set of the validator. -/
def non_empty_parents (t : TreeKemPublic) : List Nat :=
  (List.range t.nodes.length).filter fun i =>
    i % 2 = 1 &&
      match t.nodes[i]? with
      | some (some _) => true
      | _ => false

/-- Modelled from the spec: the leaves of the subtree rooted at node `c`
span the node indexes within distance `2 ^ level c - 1` of `c`. -/
def subtree_contains (c x : Nat) : Bool :=
  decide (c + 1 - 2 ^ level c ≤ x) && decide (x ≤ c + 2 ^ level c - 1)

/-- Embedding of `TreeKemPublic::unmerged_in_subtree`: the unmerged leaves
of parent `p` lying in the subtree under `c` (`none` when `p` is not a
non-blank parent node). -/
def unmerged_in_subtree (t : TreeKemPublic) (p c : Nat) : Option (List Nat) :=
  match t.nodes[p]? with
  | some (some (Node.parent pr)) =>
    some (pr.unmerged_leaves.filter fun li => subtree_contains c (2 * li))
  | _ => none

/-- Fueled embedding of `NodeVec::get_resolution_index`, following the
spec: a non-blank node resolves to itself followed by its unmerged leaves,
a blank leaf to nothing, and a blank parent to the concatenation of its
children's resolutions. -/
def resolution_fuel (t : TreeKemPublic) : Nat → Nat → Option (List Nat)
  | 0, _ => none
  | fuel + 1, x =>
    match t.nodes[x]? with
    | none => none
    | some (some (Node.leaf _)) => some [x]
    | some (some (Node.parent p)) => some (x :: p.unmerged_leaves.map (2 * ·))
    | some none =>
      if x % 2 = 0 then some []
      else do
        let l ← left x
        let r ← right x (total_leaf_count t)
        let rl ← resolution_fuel t fuel l
        let rr ← resolution_fuel t fuel r
        some (rl ++ rr)

/-- Embedding of `NodeVec::get_resolution_index` with ample fuel. -/
def get_resolution_index (t : TreeKemPublic) (x : Nat) : Option (List Nat) :=
  resolution_fuel t (t.nodes.length + 2) x

/-- TLS serialization of `ParentHashInput` modelled as length-prefixed
byte vectors. -/
def ser_parent_hash_input (pk ph osth : List Nat) : List Nat :=
  pk.length :: pk ++ ph.length :: ph ++ osth.length :: osth

/-- Embedding of `TreeKemPublic::parent_hash`: borrow node `node_index` as
a parent and hash its public key, the parent's parent hash, and the cached
original tree hash of the co-path child (`none` encodes the
borrow-as-parent error). -/
def tree_parent_hash (hash : List Nat → List Nat) (t : TreeKemPublic)
    (parent_parent_hash : List Nat) (node_index co_path_child_index : Nat) :
    Option (List Nat) :=
  match t.nodes[node_index]? with
  | some (some (Node.parent p)) =>
    some (hash (ser_parent_hash_input p.public_key parent_parent_hash
      (t.original_hashes.getD co_path_child_index [])))
  | _ => none

/-- Embedding of the errors `validate_parent_hashes` surfaces: the
dedicated mismatch error, or any propagated tree-math/node error
(collapsed into `other`). -/
inductive RatchetTreeError where
  | parent_hash_mismatch
  | parent_hash_not_found
  | other
  deriving Repr, DecidableEq

/-- Outcome of the search for the first non-blank ancestor. -/
inductive SkipResult where
  | found (p s : Nat)
  | chain_end
  | fail
  deriving Repr, DecidableEq

/-- Embedding of the blank-skipping loop of `validate_parent_hashes`:
starting from candidate ancestor `p` with co-path child `s`, climb while
`p` is blank; reaching the root ends the chain, a tree-math or node error
fails. -/
def skip_blanks (t : TreeKemPublic) (num_leaves : Nat) :
    Nat → Nat → Nat → SkipResult
  | 0, _, _ => .fail
  | fuel + 1, p, s =>
    match is_blank t p with
    | none => .fail
    | some false => .found p s
    | some true =>
      match parent p num_leaves with
      | none => .chain_end
      | some pp =>
        match sibling p num_leaves with
        | none => .fail
        | some s1 => skip_blanks t num_leaves fuel pp s1

/-- Outcome of one step of a validation chain. -/
inductive ChainStep where
  | reached_root
  | chain_end
  | fail_other
  | fail_mismatch
  | mark (p : Nat)
  deriving Repr, DecidableEq

/-- One step of a validation chain at current node `n`, parameterized by
the resolution check `res_check n resolution unmerged_doubled`: stop at
the root; find the first non-blank ancestor `p` with co-path child `s`;
end the chain when `n`'s stored parent hash does not equal the recomputed
`ParentHash(p, s)`; otherwise run the resolution check on `c = sibling s`
and mark `p` on success or fail with the mismatch error.  The divergent
corner (a non-blank `p` without a parent-hash field, on which the source
loops forever) is modelled as a failure; it cannot arise on well-formed
trees. -/
def chain_step (res_check : Nat → Finset Nat → Finset Nat → Bool)
    (hash : List Nat → List Nat) (t : TreeKemPublic)
    (num_leaves root_idx : Nat) (n : Nat) : ChainStep :=
  if n = root_idx then .reached_root
  else
    match parent n num_leaves, sibling n num_leaves with
    | some p0, some s0 =>
      (match skip_blanks t num_leaves (t.nodes.length + 2) p0 s0 with
      | .fail => .fail_other
      | .chain_end => .chain_end
      | .found p s =>
        match t.nodes[p]? with
        | some (some pnode) =>
          match pnode.get_parent_hash with
          | some php =>
            match t.nodes[n]? with
            | some (some nnode) =>
              match tree_parent_hash hash t php p s with
              | none => .fail_other
              | some computed =>
                if nnode.get_parent_hash = some computed then
                  match sibling s num_leaves with
                  | none => .fail_other
                  | some c =>
                    match get_resolution_index t c, unmerged_in_subtree t p c with
                    | some res, some unm =>
                      if res_check n res.toFinset
                          ((unm.map (2 * ·)).toFinset)
                      then .mark p
                      else .fail_mismatch
                    | _, _ => .fail_other
                else .chain_end
            | _ => .fail_other
          | none => .fail_other
        | _ => .fail_other)
    | _, _ => .fail_other

/-- Resolution check exactly as the source performs it:
`c_resolution.remove(&n) && c_resolution == p_unmerged_in_c_subtree`. -/
def res_check_code (n : Nat) (res unm : Finset Nat) : Bool :=
  decide (n ∈ res) && decide (res.erase n = unm)

/-- Resolution check as the specification words it:
`resolution(C) = { L } ∪ (unmerged_leaves(P) ∩ subtree(C))`. -/
def res_check_spec (n : Nat) (res unm : Finset Nat) : Bool :=
  decide (res = insert n unm)

/-- Embedding of one leaf-to-root walk of `validate_parent_hashes` with
the shared `nodes_to_validate` state: marking an already-validated parent
is the mismatch error, as is a failed resolution check inside
`chain_step`. -/
def chain_aux (res_check : Nat → Finset Nat → Finset Nat → Bool)
    (hash : List Nat → List Nat) (t : TreeKemPublic)
    (num_leaves root_idx : Nat) :
    Nat → Nat → List Nat → Except RatchetTreeError (List Nat)
  | 0, _, _ => .error .other
  | fuel + 1, n, tv =>
    match chain_step res_check hash t num_leaves root_idx n with
    | .reached_root => .ok tv
    | .chain_end => .ok tv
    | .fail_other => .error .other
    | .fail_mismatch => .error .parent_hash_mismatch
    | .mark p =>
      if p ∈ tv then chain_aux res_check hash t num_leaves root_idx fuel p (tv.erase p)
      else .error .parent_hash_mismatch

/-- The same walk detached from the shared state: the list of parents one
chain marks, or `none` when the walk fails. -/
def chain_marks (res_check : Nat → Finset Nat → Finset Nat → Bool)
    (hash : List Nat → List Nat) (t : TreeKemPublic)
    (num_leaves root_idx : Nat) : Nat → Nat → Option (List Nat)
  | 0, _ => none
  | fuel + 1, n =>
    match chain_step res_check hash t num_leaves root_idx n with
    | .reached_root => some []
    | .chain_end => some []
    | .fail_other => none
    | .fail_mismatch => none
    | .mark p =>
      (chain_marks res_check hash t num_leaves root_idx fuel p).map (p :: ·)

/-- Embedding of the `try_for_each` over non-blank leaves: run each chain
in order, threading the `nodes_to_validate` state. -/
def validate_run (res_check : Nat → Finset Nat → Finset Nat → Bool)
    (hash : List Nat → List Nat) (t : TreeKemPublic)
    (num_leaves root_idx fuel : Nat) :
    List Nat → List Nat → Except RatchetTreeError (List Nat)
  | [], tv => .ok tv
  | l :: rest, tv => do
    let tv1 ← chain_aux res_check hash t num_leaves root_idx fuel l tv
    validate_run res_check hash t num_leaves root_idx fuel rest tv1

/-- Embedding of `TreeKemPublic::validate_parent_hashes`: collect the
non-blank parents, run one chain per non-blank leaf, and succeed iff every
collected parent was validated. -/
def validate_parent_hashes (hash : List Nat → List Nat) (t : TreeKemPublic) :
    Except RatchetTreeError Unit :=
  let tv := non_empty_parents t
  let num_leaves := total_leaf_count t
  let root_idx := root num_leaves
  match validate_run res_check_code hash t num_leaves root_idx
      (t.nodes.length + 2) (non_empty_leaf_nodes t) tv with
  | .error e => .error e
  | .ok rest => if rest.isEmpty then .ok () else .error .parent_hash_mismatch

/-- Independent chains of every non-blank leaf, in order (`none` when some
chain fails). -/
def collect_marks (res_check : Nat → Finset Nat → Finset Nat → Bool)
    (hash : List Nat → List Nat) (t : TreeKemPublic)
    (num_leaves root_idx fuel : Nat) :
    List Nat → Option (List (List Nat))
  | [] => some []
  | l :: rest => do
    let m ← chain_marks res_check hash t num_leaves root_idx fuel l
    let ms ← collect_marks res_check hash t num_leaves root_idx fuel rest
    some (m :: ms)

/-- The claim's coverage predicate over a choice of resolution check:
every chain succeeds, no parent is marked twice, and the marked parents
are exactly the non-blank parents. -/
def covered_exactly_once (res_check : Nat → Finset Nat → Finset Nat → Bool)
    (hash : List Nat → List Nat) (t : TreeKemPublic) : Bool :=
  match collect_marks res_check hash t (total_leaf_count t)
      (root (total_leaf_count t)) (t.nodes.length + 2)
      (non_empty_leaf_nodes t) with
  | none => false
  | some css =>
    decide css.flatten.Nodup &&
      decide (css.flatten.toFinset = (non_empty_parents t).toFinset)

/-- Well-formedness of the node vector per the spec invariant: leaf
variants at even indexes, parent variants at odd indexes. -/
def well_formed (t : TreeKemPublic) : Bool :=
  (List.range t.nodes.length).all fun i =>
    match t.nodes[i]? with
    | some (some (Node.leaf _)) => i % 2 = 0
    | some (some (Node.parent _)) => i % 2 = 1
    | _ => true

/-- Embedding of `NodeVec::is_leaf` on node indexes. -/
def node_is_leaf (i : Nat) : Bool := i % 2 = 0

/-- Fueled walk producing the direct path of a node with the co-path child
at each step, from the node's parent up to the root. -/
def direct_path_co_path_aux (num_leaves : Nat) :
    Nat → Nat → Option (List (Nat × Nat))
  | 0, _ => none
  | fuel + 1, n =>
    match parent n num_leaves with
    | none => some []
    | some p =>
      match sibling n num_leaves with
      | none => none
      | some s =>
        (direct_path_co_path_aux num_leaves fuel p).map ((p, s) :: ·)

/-- Modelled from the spec: `NodeVec::filtered_direct_path_co_path`, the
direct path of a leaf paired with co-path children, omitting steps whose
co-path child resolves to nothing. -/
def filtered_direct_path_co_path (t : TreeKemPublic) (leaf_index : Nat) :
    Option (List (Nat × Nat)) :=
  (direct_path_co_path_aux (total_leaf_count t) (t.nodes.length + 2)
    (2 * leaf_index)).map fun dp =>
    dp.filter fun ps => !((get_resolution_index t ps.2).getD []).isEmpty

/-- Embedding of `TreeKemPublic::parent_hash_for_leaf`: empty parent hash
for trees of at most one leaf; otherwise fold the parent-hash chain from
the root down along the reversed filtered direct path, recording the value
assigned to each non-leaf node (the `on_node_calculation` callback is
returned as a change list, as the design notes suggest). -/
def parent_hash_for_leaf (hash : List Nat → List Nat) (t : TreeKemPublic)
    (index : Nat) : Except RatchetTreeError (List Nat × List (Nat × List Nat)) :=
  if total_leaf_count t ≤ 1 then .ok ([], [])
  else
    match filtered_direct_path_co_path t index with
    | none => .error .other
    | some fdp =>
      fdp.reverse.foldlM
        (fun acc step =>
          let changes :=
            if node_is_leaf step.1 then acc.2 else acc.2 ++ [(step.1, acc.1)]
          match tree_parent_hash hash t acc.1 step.1 step.2 with
          | none => .error .other
          | some calculated => .ok (calculated, changes))
        ([], [])


/-- Sequential membership: each listed element is present when its turn
comes, after the removal of the elements before it. -/
def stepwise_mem : List Nat → List Nat → Bool
  | [], _ => true
  | p :: ps, tv => decide (p ∈ tv) && stepwise_mem ps (tv.erase p)

/-- Remove the listed elements one after the other. -/
def erase_list (tv ms : List Nat) : List Nat := ms.foldl List.erase tv

/-- Concrete two-leaf tree whose second leaf committed last: its stored
parent hash is the recomputed one under the identity hash, the first leaf
still has its key-package source. -/
def two_leaf_tree : TreeKemPublic :=
  ⟨[some (.leaf ⟨[1], .key_package⟩),
    some (.parent ⟨[5], [6], []⟩),
    some (.leaf ⟨[2], .commit [1, 5, 1, 6, 1, 1]⟩)],
    [[1], [2], [3]]⟩

/-- Concrete single-leaf tree. -/
def single_leaf_tree : TreeKemPublic :=
  ⟨[some (.leaf ⟨[1], .key_package⟩)], [[1]]⟩

/-- The same tree with the second leaf also recorded as an unmerged leaf
of the (only) parent node. -/
def unmerged_leaf_tree : TreeKemPublic :=
  ⟨[some (.leaf ⟨[1], .key_package⟩),
    some (.parent ⟨[5], [6], [1]⟩),
    some (.leaf ⟨[2], .commit [1, 5, 1, 6, 1, 1]⟩)],
    [[1], [2], [3]]⟩

/-- Boolean predicate of the path-required rule: the fetched proposal set
contains an Update or a Remove. -/
def has_update_or_remove (l : List PendingProposal) : Bool :=
  l.any fun p => p.proposal.is_update || p.proposal.is_remove

/-- Concrete instantiation of the external collaborators, used to evaluate
the pipeline on concrete inputs. -/
def toy_env : GroupEnv where
  protocol_version := 1
  hash := fun l => l
  hmac := fun k d => k ++ d
  verify := fun _ _ _ => true
  sign := fun _ => [1]
  signable := fun _ _ => [2]
  ser_plaintext := fun _ => [3]
  ser_key_package := fun kp => [kp.data]
  ser_context := fun _ => [4]
  ser_group_secrets := fun _ => [5]
  ser_group_info := fun _ => [6]
  ser_content_auth := fun _ _ => [7]
  sign_group_info := fun _ => [8]
  welcome_encrypt := fun _ _ => [9]
  hpke_seal := fun _ _ => [10]
  get_confirmed_transcript_hash := fun a b => a ++ b
  get_interim_transcript_hash := fun a b => a ++ b
  evolved_from := fun ks cs n _ => ⟨⟨n :: cs, ks.rest⟩, [11]⟩
  from_update_path := fun _ => [12]
  from_tree_secrets := fun _ => [13]
  tree_hash := fun t => [t.leaf_count]
  gen_update_path := fun _ _ _ _ => ⟨⟨0⟩, ⟨⟨0, 0⟩⟩⟩
  apply_update_path := fun t _ _ => t
  refresh_private_key := fun _ _ _ _ _ _ _ => Except.ok ⟨⟨0, 0⟩⟩
  get_common_path_secret := fun _ _ => some [14]
  ser_commit_content := fun gid e s _ => gid ++ [e, s]

/-- Concrete key package with identifying payload `n`. -/
def toy_kp (n : Nat) : KeyPackage := ⟨n, n, [n]⟩

/-- Decidable equality for `Except` results, used to evaluate the
pipeline on concrete inputs. -/
instance {ε α : Type} [DecidableEq ε] [DecidableEq α] :
    DecidableEq (Except ε α) := fun
  | .ok a, .ok b =>
    if h : a = b then .isTrue (by rw [h])
    else .isFalse (by intro he; cases he; exact h rfl)
  | .ok _, .error _ => .isFalse (by intro h; cases h)
  | .error _, .ok _ => .isFalse (by intro h; cases h)
  | .error e, .error f =>
    if h : e = f then .isTrue (by rw [h])
    else .isFalse (by intro he; cases he; exact h rfl)

/-- Success test for `Except` results. -/
def is_ok {ε α : Type} : Except ε α → Bool
  | .ok _ => true
  | .error _ => false

/-- Decidable statement that a commit-processing result succeeded with a
recomputed confirmation tag different from `t`. -/
def tag_mismatch (e : Except GroupError GroupStateUpdate) (t : List Nat) : Bool :=
  match e with
  | .ok res => decide (t ≠ res.confirmation_tag)
  | .error _ => false

/-- Concrete two-member group at epoch 5 with empty caches. -/
def toy_group : Group where
  cipher_suite := 1
  context := ⟨[1], 5, [2], [3], 0⟩
  public_tree := ⟨[some (toy_kp 1), some (toy_kp 2)]⟩
  private_tree := ⟨0, 0⟩
  key_schedule := ⟨[4], 0⟩
  interim_transcript_hash := [5]
  proposals := []
  pending_updates := []

end MlsSpec

namespace MlsSpec

/-! ## Claim theorems for the extension and PSK components -/

/-- C10: for every `LifetimeExt` and every time `t` in whole seconds since
the Unix epoch, `within_lifetime` returns `true` iff
`not_before ≤ t ∧ t ≤ not_after`; both endpoints are inclusive. -/
theorem claim_C10 (l : LifetimeExt) (t : Nat) :
    within_lifetime l t = true ↔ (l.not_before ≤ t ∧ t ≤ l.not_after) := by
  simp [within_lifetime, ge_iff_le]

/-- C9: a PSK id list longer than 65535 entries makes `psk_secret` return
`TooManyPskIds` carrying the offending length, independently of the secret
store and the epoch lookup; a shorter list is folded in list order starting
from a zero buffer of the KDF extract size. -/
theorem claim_C9 (env : KdfEnv) (store : List Nat → Option (List Nat))
    (get_epoch : Nat → Option (List Nat)) (psk_ids : List PreSharedKeyID) :
    (65535 < psk_ids.length →
      psk_secret env store get_epoch psk_ids =
        Except.error (.too_many_psk_ids psk_ids.length)) ∧
    (psk_ids.length ≤ 65535 →
      psk_secret env store get_epoch psk_ids =
        psk_ids.enum.foldlM
          (psk_secret_step env store get_epoch psk_ids.length)
          (List.replicate env.extract_size 0)) := by
  constructor
  · intro h
    simp [psk_secret, h]
  · intro h
    have h' : ¬ 65535 < psk_ids.length := by omega
    simp [psk_secret, h']

/-- Witness for C9 at concrete inputs: a two-element PSK id list resolved
from a constant store folds to the specified value, and the length bound is
discharged by computation. -/
theorem claim_C9_witness :
    ([⟨.external [1], [7]⟩, ⟨.external [2], [8]⟩] : List PreSharedKeyID).length ≤ 65535 ∧
    psk_secret ⟨1, fun a b => a ++ b, fun p _ _ _ => p, fun _ i c => [i, c]⟩
      (fun _ => some [9]) (fun _ => none)
      [⟨.external [1], [7]⟩, ⟨.external [2], [8]⟩] =
      ([⟨.external [1], [7]⟩, ⟨.external [2], [8]⟩] : List PreSharedKeyID).enum.foldlM
        (psk_secret_step ⟨1, fun a b => a ++ b, fun p _ _ _ => p, fun _ i c => [i, c]⟩
          (fun _ => some [9]) (fun _ => none) 2)
        (List.replicate 1 0) := by
  refine ⟨by decide, ?_⟩
  exact (claim_C9 ⟨1, fun a b => a ++ b, fun p _ _ _ => p, fun _ i c => [i, c]⟩
    (fun _ => some [9]) (fun _ => none)
    [⟨.external [1], [7]⟩, ⟨.external [2], [8]⟩]).2 (by decide)

/-! ## Helper lemmas about the group pipeline -/

@[simp] theorem except_bind_ok {ε α β : Type} (a : α) (f : α → Except ε β) :
    (Except.ok a >>= f) = f a := rfl

@[simp] theorem except_bind_error {ε α β : Type} (e : ε) (f : α → Except ε β) :
    ((Except.error e : Except ε α) >>= f) = Except.error e := rfl

@[simp] theorem except_map_ok {ε α β : Type} (f : α → β) (a : α) :
    Except.map f (Except.ok a : Except ε α) = Except.ok (f a) := rfl

@[simp] theorem except_map_error {ε α β : Type} (f : α → β) (e : ε) :
    Except.map f (Except.error e : Except ε α) = Except.error e := rfl

@[simp] theorem except_pure {ε α : Type} (a : α) :
    (pure a : Except ε α) = Except.ok a := rfl

@[simp] theorem option_bind_some {α β : Type} (a : α) (f : α → Option β) :
    (some a >>= f) = f a := rfl

@[simp] theorem option_bind_none {α β : Type} (f : α → Option β) :
    ((none : Option α) >>= f) = none := rfl

theorem assoc_get_mem {α : Type} (l : List (List Nat × α))
    (hnd : (l.map Prod.fst).Nodup) (k : List Nat) (v : α)
    (hm : (k, v) ∈ l) : assoc_get l k = some v := by
  induction l with
  | nil => cases hm
  | cons hd tl ih =>
    obtain ⟨hk, hnd'⟩ := List.nodup_cons.mp hnd
    rcases List.mem_cons.mp hm with h | h
    · subst h
      simp [assoc_get]
    · have hne : hd.1 ≠ k := by
        intro he
        exact hk (he ▸ List.mem_map_of_mem Prod.fst h)
      simp [assoc_get, hne]
      exact ih hnd' h

theorem fetch_refs (g : Group) (sender : Nat)
    (l : List (List Nat × PendingProposal))
    (h : ∀ kv ∈ l, assoc_get g.proposals kv.1 = some kv.2) :
    fetch_proposals g (l.map fun kv => ProposalOrRef.reference kv.1) sender =
      Except.ok (l.map Prod.snd) := by
  induction l with
  | nil => rfl
  | cons hd tl ih =>
    have hhd := h hd (List.mem_cons_self hd tl)
    have htl := ih fun kv hkv => h kv (List.mem_cons_of_mem hd hkv)
    simp only [fetch_proposals, List.map_cons, collect_results] at htl ⊢
    simp [hhd, htl]

theorem fetch_inline (g : Group) (sender : Nat) (inl : List Proposal) :
    fetch_proposals g (inl.map ProposalOrRef.proposal) sender =
      Except.ok (inl.map fun p => (⟨p, sender⟩ : PendingProposal)) := by
  induction inl with
  | nil => rfl
  | cons hd tl ih =>
    simp only [fetch_proposals, List.map_cons, collect_results] at ih ⊢
    simp [ih]

theorem collect_results_append {α β : Type} (f : α → Except GroupError β)
    (a b : List α) (ra rb : List β)
    (ha : collect_results f a = Except.ok ra)
    (hb : collect_results f b = Except.ok rb) :
    collect_results f (a ++ b) = Except.ok (ra ++ rb) := by
  induction a generalizing ra with
  | nil =>
    simp only [collect_results] at ha
    cases ha
    simpa using hb
  | cons hd tl ih =>
    simp only [collect_results, List.cons_append, List.append_eq] at ha ⊢
    cases hhd : f hd with
    | error e => simp [hhd] at ha
    | ok y =>
      simp only [hhd, except_bind_ok] at ha ⊢
      cases htl : collect_results f tl with
      | error e => simp [htl] at ha
      | ok rtl =>
        simp only [htl, except_bind_ok] at ha
        have := ih rtl htl
        rw [this]
        cases ha
        rfl

theorem fetch_append (g : Group) (sender : Nat) (a b : List ProposalOrRef)
    (ra rb : List PendingProposal)
    (ha : fetch_proposals g a sender = Except.ok ra)
    (hb : fetch_proposals g b sender = Except.ok rb) :
    fetch_proposals g (a ++ b) sender = Except.ok (ra ++ rb) := by
  simp only [fetch_proposals] at ha hb ⊢
  exact collect_results_append _ a b ra rb ha hb

theorem no_ur_updates_nil (fetched : List PendingProposal)
    (h : has_update_or_remove fetched = false) :
    (fetched.filterMap fun p =>
      match p.proposal with
      | .update kp => some (p.sender, kp)
      | _ => none) = [] := by
  induction fetched with
  | nil => rfl
  | cons hd tl ih =>
    simp only [has_update_or_remove, List.any_cons, Bool.or_eq_false_iff] at h
    obtain ⟨h1, h2⟩ := h
    have htl := ih h2
    cases hp : hd.proposal with
    | add kp => simp [List.filterMap_cons, hp, htl]
    | update kp => simp [hp, Proposal.is_update] at h1
    | remove n => simp [List.filterMap_cons, hp, htl]

theorem apply_proposals_no_ur (env : GroupEnv) (g : Group) (sender : Nat)
    (ps : List ProposalOrRef) (fetched : List PendingProposal)
    (hf : fetch_proposals g ps sender = Except.ok fetched)
    (h : has_update_or_remove fetched = false) :
    apply_proposals env g sender ps =
      Except.ok
        ⟨(g.public_tree.add_nodes (fetched.filterMap fun p =>
            match p.proposal with
            | .add kp => some kp
            | _ => none)).1,
          none,
          (g.public_tree.add_nodes (fetched.filterMap fun p =>
            match p.proposal with
            | .add kp => some kp
            | _ => none)).2,
          fetched.isEmpty⟩ := by
  have happ : apply_updates env g [] = Except.ok (g.public_tree, none) := rfl
  have hur : (fetched.any fun p => p.proposal.is_update || p.proposal.is_remove)
      = false := h
  simp only [apply_proposals, hf, except_bind_ok]
  rw [no_ur_updates_nil fetched h, happ]
  simp [hur]

theorem apply_ok_pur (env : GroupEnv) (g : Group) (sender : Nat)
    (ps : List ProposalOrRef) (st : ProvisionalState)
    (fetched : List PendingProposal)
    (hst : apply_proposals env g sender ps = Except.ok st)
    (hf : fetch_proposals g ps sender = Except.ok fetched) :
    st.path_update_required =
      (fetched.isEmpty || has_update_or_remove fetched) := by
  simp only [apply_proposals, hf, except_bind_ok] at hst
  cases hu : apply_updates env g (fetched.filterMap fun p =>
      match p.proposal with
      | .update kp => some (p.sender, kp)
      | _ => none) with
  | error e => rw [hu] at hst; simp at hst
  | ok tl =>
    rw [hu] at hst
    simp only [except_bind_ok, Except.ok.injEq] at hst
    subst hst
    rfl

theorem find_blank_lt (l : List (Option KeyPackage)) (i : Nat)
    (h : find_blank l = some i) : i < l.length := by
  induction l generalizing i with
  | nil => simp [find_blank] at h
  | cons hd tl ih =>
    cases hd with
    | none =>
      simp only [find_blank, Option.some.injEq] at h
      subst h
      simp
    | some kp =>
      simp only [find_blank] at h
      cases hf : find_blank tl with
      | none => rw [hf] at h; simp at h
      | some j =>
        rw [hf] at h
        simp only [Option.map_some', Option.some.injEq] at h
        subst h
        have := ih j hf
        simp only [List.length_cons]
        omega

theorem add_fold_invariant (kps : List KeyPackage)
    (leaves : List (Option KeyPackage)) (idxs : List Nat)
    (hinv : ∀ i ∈ idxs, ∃ kp, leaves[i]? = some (some kp)) :
    ∀ i ∈ (kps.foldl
      (fun acc kp =>
        let (ls, j) := add_one acc.1 kp
        (ls, acc.2 ++ [j]))
      (leaves, idxs)).2,
      ∃ kp, (kps.foldl
        (fun acc kp =>
          let (ls, j) := add_one acc.1 kp
          (ls, acc.2 ++ [j]))
        (leaves, idxs)).1[i]? = some (some kp) := by
  induction kps generalizing leaves idxs with
  | nil => simpa using hinv
  | cons hd tl ih =>
    simp only [List.foldl_cons]
    cases hfb : find_blank leaves with
    | some j =>
      have hlt := find_blank_lt leaves j hfb
      simp only [add_one, hfb]
      apply ih
      intro i hi
      rcases List.mem_append.mp hi with hi | hi
      · obtain ⟨kp, hkp⟩ := hinv i hi
        by_cases hij : i = j
        · subst hij
          exact ⟨hd, by simp [List.getElem?_set_self, hlt]⟩
        · exact ⟨kp, by rw [List.getElem?_set_ne (by omega)]; exact hkp⟩
      · simp at hi
        subst hi
        exact ⟨hd, by simp [List.getElem?_set_self, hlt]⟩
    | none =>
      simp only [add_one, hfb]
      apply ih
      intro i hi
      rcases List.mem_append.mp hi with hi | hi
      · obtain ⟨kp, hkp⟩ := hinv i hi
        have hilt : i < leaves.length := by
          by_contra hc
          rw [List.getElem?_eq_none (by omega)] at hkp
          cases hkp
        exact ⟨kp, by rw [List.getElem?_append_left hilt]; exact hkp⟩
      · simp at hi
        subst hi
        refine ⟨hd, ?_⟩
        rw [List.getElem?_append_right (Nat.le_refl _)]
        simp

theorem add_nodes_get (t : RatchetTree) (kps : List KeyPackage) :
    ∀ i ∈ (t.add_nodes kps).2,
      ∃ kp, (t.add_nodes kps).1.get_key_package i = Except.ok kp := by
  intro i hi
  have := add_fold_invariant kps t.leaves [] (by simp) i
  simp only [RatchetTree.add_nodes] at hi ⊢
  obtain ⟨kp, hkp⟩ := this hi
  exact ⟨kp, by simp [RatchetTree.get_key_package, hkp]⟩

theorem collect_encrypt_ok (env : GroupEnv) (t : RatchetTree) (js : List Nat)
    (l : List Nat)
    (h : ∀ i ∈ l, ∃ kp, t.get_key_package i = Except.ok kp) :
    ∃ r, collect_results (fun i => encrypt_group_secrets env t i js none) l =
      Except.ok r := by
  induction l with
  | nil => exact ⟨[], rfl⟩
  | cons hd tl ih =>
    obtain ⟨kp, hkp⟩ := h hd (List.mem_cons_self hd tl)
    obtain ⟨rtl, hrtl⟩ := ih fun i hi => h i (List.mem_cons_of_mem hd hi)
    refine ⟨⟨env.hash (env.ser_key_package kp),
      env.hpke_seal kp.hpke_init_key (env.ser_group_secrets ⟨js, none⟩)⟩ :: rtl, ?_⟩
    have hhd : encrypt_group_secrets env t hd js none =
        Except.ok ⟨env.hash (env.ser_key_package kp),
          env.hpke_seal kp.hpke_init_key (env.ser_group_secrets ⟨js, none⟩)⟩ := by
      simp [encrypt_group_secrets, hkp]
    simp only [collect_results, hhd, except_bind_ok, hrtl]

theorem process_commit_ok_fields (env : GroupEnv) (g : Group) (sender : Nat)
    (lp : Option UpdatePathGeneration) (cc : MLSPlaintextCommitContent)
    (tag : List Nat) (res : GroupStateUpdate)
    (h : process_commit env g sender lp cc tag = Except.ok res) :
    res.group_context.epoch = g.context.epoch + 1 ∧
    res.confirmation_tag =
      env.hmac res.key_schedule.confirmation_key
        res.group_context.confirmed_transcript_hash := by
  simp only [process_commit] at h
  cases happ : apply_proposals env g sender cc.commit.proposals with
  | error e => rw [happ] at h; simp at h
  | ok prov =>
    rw [happ] at h
    simp only [except_bind_ok] at h
    by_cases hguard : prov.path_update_required = true ∧ cc.commit.path = none
    · rw [if_pos hguard] at h
      simp at h
    · rw [if_neg hguard] at h
      cases hpath : cc.commit.path with
      | none =>
        rw [hpath] at h
        simp only [except_bind_ok] at h
        cases h
        exact ⟨rfl, rfl⟩
      | some up =>
        rw [hpath] at h
        dsimp only at h
        cases lp with
        | some pending =>
          dsimp only at h
          simp only [except_map_ok, except_bind_ok] at h
          cases h
          exact ⟨rfl, rfl⟩
        | none =>
          dsimp only at h
          cases hr : env.refresh_private_key prov.public_tree g.private_tree
              prov.leaf_update sender up prov.added_leaves
              (env.ser_context g.context) with
          | error e => rw [hr] at h; simp at h
          | ok secrets =>
            rw [hr] at h
            simp only [except_map_ok, except_bind_ok] at h
            cases h
            exact ⟨rfl, rfl⟩

@[simp] theorem is_ok_ok {ε α : Type} (a : α) :
    is_ok (Except.ok a : Except ε α) = true := rfl

@[simp] theorem is_ok_error {ε α : Type} (e : ε) :
    is_ok (Except.error e : Except ε α) = false := rfl

/-! ## Claim theorems for the group state machine -/


/-! ## Helper lemmas for parent-hash validation -/

theorem chain_aux_of_marks (rc : Nat → Finset Nat → Finset Nat → Bool)
    (hash : List Nat → List Nat) (t : TreeKemPublic) (nl ri : Nat) :
    ∀ (fuel n : Nat) (ms : List Nat),
      chain_marks rc hash t nl ri fuel n = some ms →
      ∀ tv, chain_aux rc hash t nl ri fuel n tv =
        if stepwise_mem ms tv then Except.ok (erase_list tv ms)
        else Except.error .parent_hash_mismatch := by
  intro fuel
  induction fuel with
  | zero => intro n ms h; simp [chain_marks] at h
  | succ fuel ih =>
    intro n ms h tv
    cases hstep : chain_step rc hash t nl ri n with
    | reached_root =>
      simp only [chain_marks, hstep] at h
      cases h
      simp [chain_aux, hstep, stepwise_mem, erase_list]
    | chain_end =>
      simp only [chain_marks, hstep] at h
      cases h
      simp [chain_aux, hstep, stepwise_mem, erase_list]
    | fail_other => simp [chain_marks, hstep] at h
    | fail_mismatch => simp [chain_marks, hstep] at h
    | mark p =>
      simp only [chain_marks, hstep] at h
      cases hm : chain_marks rc hash t nl ri fuel p with
      | none => rw [hm] at h; simp at h
      | some ms1 =>
        rw [hm] at h
        simp only [Option.map_some', Option.some.injEq] at h
        subst h
        simp only [chain_aux, hstep]
        by_cases hp : p ∈ tv
        · rw [if_pos hp, ih p ms1 hm (tv.erase p)]
          simp [stepwise_mem, hp, erase_list]
        · rw [if_neg hp]
          simp [stepwise_mem, hp]

theorem chain_aux_of_none (rc : Nat → Finset Nat → Finset Nat → Bool)
    (hash : List Nat → List Nat) (t : TreeKemPublic) (nl ri : Nat) :
    ∀ (fuel n : Nat),
      chain_marks rc hash t nl ri fuel n = none →
      ∀ tv, ∃ e, chain_aux rc hash t nl ri fuel n tv = Except.error e := by
  intro fuel
  induction fuel with
  | zero => intro n _ tv; exact ⟨.other, rfl⟩
  | succ fuel ih =>
    intro n h tv
    cases hstep : chain_step rc hash t nl ri n with
    | reached_root => simp [chain_marks, hstep] at h
    | chain_end => simp [chain_marks, hstep] at h
    | fail_other => exact ⟨.other, by simp [chain_aux, hstep]⟩
    | fail_mismatch => exact ⟨.parent_hash_mismatch, by simp [chain_aux, hstep]⟩
    | mark p =>
      simp only [chain_marks, hstep, Option.map_eq_none'] at h
      by_cases hp : p ∈ tv
      · obtain ⟨e, he⟩ := ih p h (tv.erase p)
        exact ⟨e, by simp [chain_aux, hstep, hp, he]⟩
      · exact ⟨.parent_hash_mismatch, by simp [chain_aux, hstep, hp]⟩

theorem stepwise_mem_append (a b tv : List Nat) :
    stepwise_mem (a ++ b) tv =
      (stepwise_mem a tv && stepwise_mem b (erase_list tv a)) := by
  induction a generalizing tv with
  | nil => simp [stepwise_mem, erase_list]
  | cons p ps ih =>
    simp only [List.cons_append, stepwise_mem, ih (tv.erase p), erase_list,
      List.foldl_cons, Bool.and_assoc, List.append_eq]

theorem erase_list_append (tv a b : List Nat) :
    erase_list tv (a ++ b) = erase_list (erase_list tv a) b := by
  simp [erase_list, List.foldl_append]

theorem validate_run_none (rc : Nat → Finset Nat → Finset Nat → Bool)
    (hash : List Nat → List Nat) (t : TreeKemPublic) (nl ri fuel : Nat) :
    ∀ (leaves : List Nat) (tv : List Nat),
      collect_marks rc hash t nl ri fuel leaves = none →
      ∃ e, validate_run rc hash t nl ri fuel leaves tv = Except.error e := by
  intro leaves
  induction leaves with
  | nil => intro tv h; simp [collect_marks] at h
  | cons l rest ih =>
    intro tv h
    simp only [collect_marks] at h
    cases hm : chain_marks rc hash t nl ri fuel l with
    | none =>
      obtain ⟨e, he⟩ := chain_aux_of_none rc hash t nl ri fuel l hm tv
      exact ⟨e, by simp [validate_run, he]⟩
    | some ms =>
      rw [hm] at h
      simp only [option_bind_some] at h
      cases hrest : collect_marks rc hash t nl ri fuel rest with
      | some css => rw [hrest] at h; simp at h
      | none =>
        have ha := chain_aux_of_marks rc hash t nl ri fuel l ms hm tv
        by_cases hsw : stepwise_mem ms tv = true
        · obtain ⟨e, he⟩ := ih (erase_list tv ms) hrest
          refine ⟨e, ?_⟩
          simp only [validate_run, ha, hsw, if_true]
          simpa using he
        · refine ⟨.parent_hash_mismatch, ?_⟩
          simp only [validate_run, ha]
          rw [if_neg hsw]
          rfl

theorem validate_run_some (rc : Nat → Finset Nat → Finset Nat → Bool)
    (hash : List Nat → List Nat) (t : TreeKemPublic) (nl ri fuel : Nat) :
    ∀ (leaves : List Nat) (css : List (List Nat)) (tv : List Nat),
      collect_marks rc hash t nl ri fuel leaves = some css →
      validate_run rc hash t nl ri fuel leaves tv =
        if stepwise_mem css.flatten tv then
          Except.ok (erase_list tv css.flatten)
        else Except.error .parent_hash_mismatch := by
  intro leaves
  induction leaves with
  | nil =>
    intro css tv h
    simp only [collect_marks, Option.some.injEq] at h
    subst h
    simp [validate_run, stepwise_mem, erase_list]
  | cons l rest ih =>
    intro css tv h
    simp only [collect_marks] at h
    cases hm : chain_marks rc hash t nl ri fuel l with
    | none => rw [hm] at h; simp at h
    | some ms =>
      rw [hm] at h
      simp only [option_bind_some] at h
      cases hrest : collect_marks rc hash t nl ri fuel rest with
      | none => rw [hrest] at h; simp at h
      | some css1 =>
        rw [hrest] at h
        simp only [option_bind_some, Option.some.injEq] at h
        subst h
        have ha := chain_aux_of_marks rc hash t nl ri fuel l ms hm tv
        simp only [validate_run, ha, List.flatten_cons]
        by_cases hsw : stepwise_mem ms tv = true
        · rw [if_pos hsw]
          simp only [except_bind_ok]
          rw [ih css1 (erase_list tv ms) hrest]
          have hsa : stepwise_mem (ms ++ css1.flatten) tv =
              (stepwise_mem ms tv && stepwise_mem css1.flatten (erase_list tv ms)) :=
            stepwise_mem_append ms css1.flatten tv
          rw [hsa, hsw, Bool.true_and, erase_list_append]
        · rw [if_neg hsw]
          have hsa : stepwise_mem (ms ++ css1.flatten) tv =
              (stepwise_mem ms tv && stepwise_mem css1.flatten (erase_list tv ms)) :=
            stepwise_mem_append ms css1.flatten tv
          rw [hsa]
          simp only [Bool.and_eq_true] at *
          rw [if_neg (by simp [hsw])]
          rfl

theorem stepwise_sound (ms : List Nat) :
    ∀ tv : List Nat, tv.Nodup → stepwise_mem ms tv = true →
      ms.Nodup ∧ ∀ p ∈ ms, p ∈ tv := by
  induction ms with
  | nil => intro tv _ _; exact ⟨List.nodup_nil, by simp⟩
  | cons p ps ih =>
    intro tv hnd h
    simp only [stepwise_mem, Bool.and_eq_true, decide_eq_true_eq] at h
    obtain ⟨hp, hsw⟩ := h
    obtain ⟨hnd1, hsub⟩ := ih (tv.erase p) (hnd.erase p) hsw
    refine ⟨List.nodup_cons.mpr ⟨?_, hnd1⟩, ?_⟩
    · intro hmem
      have := hsub p hmem
      rw [List.Nodup.mem_erase_iff hnd] at this
      exact this.1 rfl
    · intro q hq
      rcases List.mem_cons.mp hq with rfl | hq
      · exact hp
      · have := hsub q hq
        rw [List.Nodup.mem_erase_iff hnd] at this
        exact this.2

theorem erase_list_length (ms : List Nat) :
    ∀ tv : List Nat, stepwise_mem ms tv = true →
      (erase_list tv ms).length = tv.length - ms.length := by
  induction ms with
  | nil => intro tv _; simp [erase_list]
  | cons p ps ih =>
    intro tv h
    simp only [stepwise_mem, Bool.and_eq_true, decide_eq_true_eq] at h
    obtain ⟨hp, hsw⟩ := h
    have h1 : erase_list tv (p :: ps) = erase_list (tv.erase p) ps := by
      simp [erase_list]
    rw [h1, ih (tv.erase p) hsw, List.length_erase_of_mem hp]
    have : 1 ≤ tv.length := List.length_pos_of_mem hp
    simp only [List.length_cons]
    omega

theorem cover_stepwise (ms : List Nat) :
    ∀ tv : List Nat, tv.Nodup → ms.Nodup → ms.toFinset = tv.toFinset →
      stepwise_mem ms tv = true ∧ erase_list tv ms = [] := by
  induction ms with
  | nil =>
    intro tv _ _ hfin
    have htv : tv = [] := by
      rw [← List.toFinset_eq_empty_iff, ← hfin]
      rfl
    subst htv
    exact ⟨rfl, rfl⟩
  | cons p ps ih =>
    intro tv hnd hnd1 hfin
    obtain ⟨hpns, hndps⟩ := List.nodup_cons.mp hnd1
    have hp : p ∈ tv := by
      rw [← List.mem_toFinset, ← hfin]
      simp
    have hps : ps.toFinset = (tv.erase p).toFinset := by
      have h1 : (tv.erase p).toFinset = tv.toFinset.erase p := by
        ext a
        simp only [List.mem_toFinset, Finset.mem_erase,
          List.Nodup.mem_erase_iff hnd]
      rw [h1, ← hfin]
      simp only [List.toFinset_cons]
      rw [Finset.erase_insert (by simp [List.mem_toFinset, hpns])]
    obtain ⟨hsw, her⟩ := ih (tv.erase p) (hnd.erase p) hndps hps
    refine ⟨?_, ?_⟩
    · simp [stepwise_mem, hp, hsw]
    · simpa [erase_list] using her

theorem stepwise_cover_iff (ms tv : List Nat) (hnd : tv.Nodup) :
    (stepwise_mem ms tv = true ∧ erase_list tv ms = []) ↔
      (ms.Nodup ∧ ms.toFinset = tv.toFinset) := by
  constructor
  · rintro ⟨hsw, herase⟩
    obtain ⟨hnd1, hsub⟩ := stepwise_sound ms tv hnd hsw
    refine ⟨hnd1, ?_⟩
    have hlen := erase_list_length ms tv hsw
    rw [herase] at hlen
    simp only [List.length_nil] at hlen
    have hsubF : ms.toFinset ⊆ tv.toFinset := by
      intro a ha
      rw [List.mem_toFinset] at ha ⊢
      exact hsub a ha
    have hcard1 : ms.toFinset.card = ms.length := List.toFinset_card_of_nodup hnd1
    have hcard2 : tv.toFinset.card = tv.length := List.toFinset_card_of_nodup hnd
    have hle : tv.toFinset.card ≤ ms.toFinset.card := by omega
    exact Finset.eq_of_subset_of_card_le hsubF hle
  · rintro ⟨hnd1, hfin⟩
    exact cover_stepwise ms tv hnd hnd1 hfin

theorem non_empty_parents_nodup (t : TreeKemPublic) :
    (non_empty_parents t).Nodup :=
  (List.nodup_range _).filter _


/-- C1 (amended): parent-hash validation succeeds exactly when the
independent leaf-to-root chains (with the source's resolution check: the
current node belongs to the child's resolution and the resolution with
that node removed equals the parent's unmerged leaves restricted to the
child's subtree) all succeed and mark every non-blank parent exactly once;
and whenever every chain succeeds but validation fails, the error is
`ParentHashMismatch` (a parent marked a second time, or one never
marked). -/
theorem claim_C1 (hash : List Nat → List Nat) (t : TreeKemPublic)
    (hwf : well_formed t = true) :
    (validate_parent_hashes hash t = Except.ok () ↔
      covered_exactly_once res_check_code hash t = true) ∧
    (∀ css, collect_marks res_check_code hash t (total_leaf_count t)
        (root (total_leaf_count t)) (t.nodes.length + 2)
        (non_empty_leaf_nodes t) = some css →
      validate_parent_hashes hash t ≠ Except.ok () →
      validate_parent_hashes hash t = Except.error .parent_hash_mismatch) := by
  have hnd := non_empty_parents_nodup t
  constructor
  · constructor
    · intro hv
      simp only [validate_parent_hashes] at hv
      cases hc : collect_marks res_check_code hash t (total_leaf_count t)
          (root (total_leaf_count t)) (t.nodes.length + 2)
          (non_empty_leaf_nodes t) with
      | none =>
        obtain ⟨e, he⟩ := validate_run_none res_check_code hash t
          (total_leaf_count t) (root (total_leaf_count t))
          (t.nodes.length + 2) (non_empty_leaf_nodes t)
          (non_empty_parents t) hc
        rw [he] at hv
        simp at hv
      | some css =>
        have hrun := validate_run_some res_check_code hash t
          (total_leaf_count t) (root (total_leaf_count t))
          (t.nodes.length + 2) (non_empty_leaf_nodes t) css
          (non_empty_parents t) hc
        rw [hrun] at hv
        by_cases hsw : stepwise_mem css.flatten (non_empty_parents t) = true
        · rw [if_pos hsw] at hv
          by_cases hemp :
              (erase_list (non_empty_parents t) css.flatten).isEmpty = true
          · have her := List.isEmpty_iff.mp hemp
            obtain ⟨hnd1, hfin⟩ :=
              (stepwise_cover_iff css.flatten (non_empty_parents t) hnd).mp
                ⟨hsw, her⟩
            simp [covered_exactly_once, hc, hnd1, hfin]
          · simp [hemp] at hv
        · rw [if_neg hsw] at hv
          simp at hv
    · intro hcov
      simp only [covered_exactly_once] at hcov
      cases hc : collect_marks res_check_code hash t (total_leaf_count t)
          (root (total_leaf_count t)) (t.nodes.length + 2)
          (non_empty_leaf_nodes t) with
      | none => rw [hc] at hcov; simp at hcov
      | some css =>
        rw [hc] at hcov
        simp only [Bool.and_eq_true, decide_eq_true_eq] at hcov
        obtain ⟨hnd1, hfin⟩ := hcov
        obtain ⟨hsw, her⟩ :=
          (stepwise_cover_iff css.flatten (non_empty_parents t) hnd).mpr
            ⟨hnd1, hfin⟩
        have hrun := validate_run_some res_check_code hash t
          (total_leaf_count t) (root (total_leaf_count t))
          (t.nodes.length + 2) (non_empty_leaf_nodes t) css
          (non_empty_parents t) hc
        simp [validate_parent_hashes, hrun, hsw, her]
  · intro css hc hne
    have hrun := validate_run_some res_check_code hash t
      (total_leaf_count t) (root (total_leaf_count t))
      (t.nodes.length + 2) (non_empty_leaf_nodes t) css
      (non_empty_parents t) hc
    by_cases hsw : stepwise_mem css.flatten (non_empty_parents t) = true
    · by_cases hemp :
          (erase_list (non_empty_parents t) css.flatten).isEmpty = true
      · exact absurd (by simp [validate_parent_hashes, hrun, hsw, hemp]) hne
      · simp [validate_parent_hashes, hrun, hsw, hemp]
    · simp [validate_parent_hashes, hrun, hsw]

/-- Witness for C1 at a concrete tree: the two-leaf tree whose second
leaf carries the correct commit parent hash is well formed, validates, and
satisfies the coverage predicate via the equivalence. -/
theorem claim_C1_witness :
    well_formed two_leaf_tree = true ∧
    validate_parent_hashes (fun l => l) two_leaf_tree = Except.ok () ∧
    covered_exactly_once res_check_code (fun l => l) two_leaf_tree = true :=
  ⟨by decide, by decide,
    (claim_C1 (fun l => l) two_leaf_tree (by decide)).1.mp (by decide)⟩

/-- C1 counterexample to the claim as stated: in the well-formed tree
whose only parent records leaf 1 among its unmerged leaves, every
non-blank parent is covered by exactly one chain under the
specification's resolution equation
`resolution(C) = {L} ∪ (unmerged(P) ∩ subtree(C))`, yet
`validate_parent_hashes` fails with `ParentHashMismatch` (the source
instead requires `resolution(C) \ {L}` to equal the restricted unmerged
set, which differs when `L` itself is unmerged). -/
theorem claim_C1_counterexample :
    well_formed unmerged_leaf_tree = true ∧
    covered_exactly_once res_check_spec (fun l => l) unmerged_leaf_tree = true ∧
    validate_parent_hashes (fun l => l) unmerged_leaf_tree =
      Except.error .parent_hash_mismatch :=
  ⟨by decide, by decide, by decide⟩

/-- C8: for a tree with at most one leaf, the leaf parent-hash computation
returns the empty byte string (and records no intermediate node hashes). -/
theorem claim_C8 (hash : List Nat → List Nat) (t : TreeKemPublic)
    (index : Nat) (h : total_leaf_count t ≤ 1) :
    parent_hash_for_leaf hash t index = Except.ok ([], []) := by
  simp [parent_hash_for_leaf, h]

/-- Witness for C8: the concrete single-leaf tree yields the empty parent
hash. -/
theorem claim_C8_witness :
    total_leaf_count single_leaf_tree ≤ 1 ∧
    parent_hash_for_leaf (fun l => l) single_leaf_tree 0 =
      Except.ok ([], []) :=
  ⟨by decide, claim_C8 (fun l => l) single_leaf_tree 0 (by decide)⟩

/-- C5: a plaintext whose epoch differs from the current group context
fails with `InvalidPlaintextEpoch` for every choice of collaborators (in
particular before any signature verification or content dispatch), with
the group state unchanged. -/
theorem claim_C5 (env : GroupEnv) (g : Group) (pt : MLSPlaintext)
    (lp : Option UpdatePathGeneration) (h : pt.epoch ≠ g.context.epoch) :
    process_plaintext_internal env g pt lp =
      (g, Except.error .invalid_plaintext_epoch) := by
  simp [process_plaintext_internal, h]

/-- Witness for C5: a message at epoch 6 presented to the concrete group
at epoch 5 is rejected without touching the state. -/
theorem claim_C5_witness :
    process_plaintext_internal toy_env toy_group
        ⟨[1], 6, 0, [], Content.application [1], [], none, none⟩ none =
      (toy_group, Except.error .invalid_plaintext_epoch) :=
  claim_C5 toy_env toy_group
    ⟨[1], 6, 0, [], Content.application [1], [], none, none⟩ none (by decide)

/-- C4: every state produced by `process_commit` carries a confirmation
tag equal to `MAC(confirmation_key, confirmed_transcript_hash)` of the new
epoch, and a commit message whose attached tag differs from the recomputed
one fails with `InvalidConfirmationTag` leaving the group state
unchanged. -/
theorem claim_C4 (env : GroupEnv) (g : Group) :
    (∀ sender lp cc tag res,
      process_commit env g sender lp cc tag = Except.ok res →
      res.confirmation_tag =
        env.hmac res.key_schedule.confirmation_key
          res.group_context.confirmed_transcript_hash) ∧
    (∀ pt lp kp c t,
      pt.content = Content.commit c →
      g.public_tree.get_key_package pt.sender = Except.ok kp →
      env.verify kp.credential pt.signature (env.signable pt g.context) = true →
      pt.epoch = g.context.epoch →
      pt.confirmation_tag = some t →
      tag_mismatch
        (process_commit env g pt.sender lp ⟨pt.group_id, pt.epoch, pt.sender, c⟩ t)
        t = true →
      process_plaintext_internal env g pt lp =
        (g, Except.error .invalid_confirmation_tag)) := by
  constructor
  · intro sender lp cc tag res h
    exact (process_commit_ok_fields env g sender lp cc tag res h).2
  · intro pt lp kp c t hcontent hkp hv hep htag hmm
    have hepoch : ¬ pt.epoch ≠ g.context.epoch := by simp [hep]
    have hcc : commit_content_of pt =
        Except.ok ⟨pt.group_id, pt.epoch, pt.sender, c⟩ := by
      simp [commit_content_of, hcontent]
    have had : auth_data_of pt = Except.ok t := by
      simp [auth_data_of, htag]
    cases hpc : process_commit env g pt.sender lp
        ⟨pt.group_id, pt.epoch, pt.sender, c⟩ t with
    | error e => rw [hpc] at hmm; simp [tag_mismatch] at hmm
    | ok res =>
      rw [hpc] at hmm
      simp only [tag_mismatch, decide_eq_true_eq] at hmm
      rw [hep] at hpc
      simp [process_plaintext_internal, hep, hkp, hv, hcontent, hcc, had,
        hpc, htag, hmm]

/-- Witness for C4: in the concrete group, an Add-only commit message
carrying the wrong confirmation tag `[99]` is rejected with
`InvalidConfirmationTag` and the state is unchanged. -/
theorem claim_C4_witness :
    process_plaintext_internal toy_env toy_group
        ⟨[1], 5, 0, [],
          Content.commit ⟨[ProposalOrRef.proposal (Proposal.add (toy_kp 3))], none⟩,
          [], some [99], none⟩ none =
      (toy_group, Except.error .invalid_confirmation_tag) :=
  (claim_C4 toy_env toy_group).2
    ⟨[1], 5, 0, [],
      Content.commit ⟨[ProposalOrRef.proposal (Proposal.add (toy_kp 3))], none⟩,
      [], some [99], none⟩ none (toy_kp 1)
    ⟨[ProposalOrRef.proposal (Proposal.add (toy_kp 3))], none⟩ [99]
    (by decide) (by decide) (by decide) (by decide) (by decide) (by decide)

/-- C6: whenever `process_plaintext_internal` successfully processes a
commit, the resulting group state is the candidate state computed by
`process_commit` swapped in whole (tree, optional private keys, context,
key schedule, interim hash), the epoch advances by exactly one, and both
the proposal cache and the pending-updates map are cleared. -/
theorem claim_C6 (env : GroupEnv) (g : Group) (pt : MLSPlaintext)
    (lp : Option UpdatePathGeneration) (c : Commit)
    (hc : pt.content = Content.commit c)
    (hok : is_ok (process_plaintext_internal env g pt lp).2 = true) :
    ∃ cc tag res,
      commit_content_of pt = Except.ok cc ∧
      auth_data_of pt = Except.ok tag ∧
      process_commit env g pt.sender lp cc tag = Except.ok res ∧
      (process_plaintext_internal env g pt lp).1 =
        { g with
            public_tree := res.public_tree
            private_tree := res.private_tree.getD g.private_tree
            context := res.group_context
            key_schedule := res.key_schedule
            interim_transcript_hash := res.interim_transcript_hash
            proposals := []
            pending_updates := [] } ∧
      res.group_context.epoch = g.context.epoch + 1 := by
  by_cases hep : pt.epoch ≠ g.context.epoch
  · simp [process_plaintext_internal, hep] at hok
  · cases hkp : g.public_tree.get_key_package pt.sender with
    | error e =>
      simp [process_plaintext_internal, hep, hkp] at hok
    | ok kp =>
      cases hv : env.verify kp.credential pt.signature (env.signable pt g.context) with
      | false =>
        simp [process_plaintext_internal, hep, hkp, hv] at hok
      | true =>
        have hcc : commit_content_of pt =
            Except.ok ⟨pt.group_id, pt.epoch, pt.sender, c⟩ := by
          simp [commit_content_of, hc]
        cases htag : pt.confirmation_tag with
        | none =>
          have had : auth_data_of pt = Except.error .other := by
            simp [auth_data_of, htag]
          simp [process_plaintext_internal, hep, hkp, hv, hc, hcc, had, htag] at hok
        | some t =>
          have had : auth_data_of pt = Except.ok t := by
            simp [auth_data_of, htag]
          cases hpc : process_commit env g pt.sender lp
              ⟨pt.group_id, pt.epoch, pt.sender, c⟩ t with
          | error e =>
            simp [process_plaintext_internal, hep, hkp, hv, hc, hcc, had, hpc, htag] at hok
          | ok res =>
            by_cases hne : t ≠ res.confirmation_tag
            · simp [process_plaintext_internal, hep, hkp, hv, hc, hcc, had, hpc,
                htag, hne] at hok
            · refine ⟨⟨pt.group_id, pt.epoch, pt.sender, c⟩, t, res, hcc, had, hpc, ?_,
                (process_commit_ok_fields env g pt.sender lp _ t res hpc).1⟩
              simp [process_plaintext_internal, hep, hkp, hv, hc, hcc, had, hpc,
                htag, hne]

/-- Witness for C6: processing an Add-only commit with the correct
confirmation tag in the concrete group advances the epoch to 6, clears
both caches, and installs the new tree. -/
theorem claim_C6_witness :
    ∃ cc tag res,
      commit_content_of
          (⟨[1], 5, 0, [],
            Content.commit ⟨[ProposalOrRef.proposal (Proposal.add (toy_kp 3))], none⟩,
            [], some [3, 13, 5, 1, 5, 0], none⟩ : MLSPlaintext) = Except.ok cc ∧
      auth_data_of
          (⟨[1], 5, 0, [],
            Content.commit ⟨[ProposalOrRef.proposal (Proposal.add (toy_kp 3))], none⟩,
            [], some [3, 13, 5, 1, 5, 0], none⟩ : MLSPlaintext) = Except.ok tag ∧
      process_commit toy_env toy_group 0 none cc tag = Except.ok res ∧
      (process_plaintext_internal toy_env toy_group
          ⟨[1], 5, 0, [],
            Content.commit ⟨[ProposalOrRef.proposal (Proposal.add (toy_kp 3))], none⟩,
            [], some [3, 13, 5, 1, 5, 0], none⟩ none).1 =
        { toy_group with
            public_tree := res.public_tree
            private_tree := res.private_tree.getD toy_group.private_tree
            context := res.group_context
            key_schedule := res.key_schedule
            interim_transcript_hash := res.interim_transcript_hash
            proposals := []
            pending_updates := [] } ∧
      res.group_context.epoch = toy_group.context.epoch + 1 :=
  claim_C6 toy_env toy_group
    ⟨[1], 5, 0, [],
      Content.commit ⟨[ProposalOrRef.proposal (Proposal.add (toy_kp 3))], none⟩,
      [], some [3, 13, 5, 1, 5, 0], none⟩ none
    ⟨[ProposalOrRef.proposal (Proposal.add (toy_kp 3))], none⟩
    (by decide) (by decide)

/-- C3: the source's `apply_proposals` does not process Remove proposals
at all (the remove-application site holds only `TODO: Process removes`):
applying a single Remove proposal leaves the provisional tree identical to
the current tree instead of blanking the removed leaf and its direct path,
while still reporting that a path update is required. -/
theorem claim_C3 :
    apply_proposals toy_env toy_group 0
        [ProposalOrRef.proposal (Proposal.remove 1)] =
      Except.ok ⟨toy_group.public_tree, none, [], true⟩ := by decide


theorem except_bind_eq_ok {ε α β : Type} (x : Except ε α) (f : α → Except ε β)
    (b : β) (h : (x >>= f) = Except.ok b) :
    ∃ a, x = Except.ok a ∧ f a = Except.ok b := by
  cases x with
  | error e => simp at h
  | ok a => exact ⟨a, rfl, h⟩

theorem is_ok_bind_collect (env : GroupEnv) (t : RatchetTree) (js : List Nat)
    (l : List Nat) (k : List EncryptedGroupSecrets → Except GroupError PendingCommit)
    (hk : ∀ r, is_ok (k r) = true)
    (h : ∀ i ∈ l, ∃ kp, t.get_key_package i = Except.ok kp) :
    is_ok ((collect_results (fun i => encrypt_group_secrets env t i js none) l)
      >>= k) = true := by
  obtain ⟨r, hr⟩ := collect_encrypt_ok env t js l h
  rw [hr]
  simpa using hk r

/-- C2: the path-required rule.  With the resolved proposal set written
`F` on the committer side and `fetched` on the receiver side: an empty set
or one containing an Update or Remove makes `commit_proposals` with
`update_path = false` and `process_commit` with an absent path fail with
`InvalidCommit`; a non-empty set free of Updates and Removes lets both
succeed with the path omitted. -/
theorem claim_C2 (env : GroupEnv) (g : Group) (inl : List Proposal)
    (sender : Nat) (cc : MLSPlaintextCommitContent) (tag : List Nat)
    (lp : Option UpdatePathGeneration) (F fetched : List PendingProposal)
    (hnd : (g.proposals.map Prod.fst).Nodup)
    (hF : F = g.proposals.map Prod.snd ++
      inl.map fun p => (⟨p, g.private_tree.self_index⟩ : PendingProposal))
    (hfr : fetch_proposals g cc.commit.proposals sender = Except.ok fetched)
    (hpath : cc.commit.path = none) :
    ((F = [] ∨ has_update_or_remove F = true) →
      is_ok (apply_proposals env g g.private_tree.self_index
        ((g.proposals.map fun kv => ProposalOrRef.reference kv.1) ++
          inl.map ProposalOrRef.proposal)) = true →
      commit_proposals env g inl false = Except.error .invalid_commit) ∧
    (F ≠ [] → has_update_or_remove F = false →
      is_ok (commit_proposals env g inl false) = true) ∧
    ((fetched = [] ∨ has_update_or_remove fetched = true) →
      is_ok (apply_proposals env g sender cc.commit.proposals) = true →
      process_commit env g sender lp cc tag = Except.error .invalid_commit) ∧
    (fetched ≠ [] → has_update_or_remove fetched = false →
      is_ok (process_commit env g sender lp cc tag) = true) := by
  have hfetch : fetch_proposals g
      ((g.proposals.map fun kv => ProposalOrRef.reference kv.1) ++
        inl.map ProposalOrRef.proposal) g.private_tree.self_index =
      Except.ok F := by
    rw [hF]
    exact fetch_append g g.private_tree.self_index _ _ _ _
      (fetch_refs g g.private_tree.self_index g.proposals
        fun kv hkv => assoc_get_mem g.proposals hnd kv.1 kv.2 hkv)
      (fetch_inline g g.private_tree.self_index inl)
  refine ⟨?_, ?_, ?_, ?_⟩
  · intro hS hok
    cases happ : apply_proposals env g g.private_tree.self_index
        ((g.proposals.map fun kv => ProposalOrRef.reference kv.1) ++
          inl.map ProposalOrRef.proposal) with
    | error e => rw [happ] at hok; simp at hok
    | ok st =>
      have hpur : st.path_update_required = true := by
        rw [apply_ok_pur env g g.private_tree.self_index _ st F happ hfetch]
        rcases hS with hS | hS
        · subst hS; rfl
        · simp [hS]
      simp only [commit_proposals, happ, except_bind_ok]
      exact if_pos ⟨hpur, trivial⟩

  · intro hne hnur
    have happ := apply_proposals_no_ur env g g.private_tree.self_index _ F
      hfetch hnur
    have hempty : F.isEmpty = false := by
      cases F with
      | nil => exact absurd rfl hne
      | cons a l => rfl
    simp only [commit_proposals, happ, except_bind_ok, hempty,
      Bool.false_eq_true, if_false, Option.map_none']
    exact is_ok_bind_collect env _ _ _ _ (fun r => rfl)
      (add_nodes_get g.public_tree _)
  · intro hS hok
    cases happ : apply_proposals env g sender cc.commit.proposals with
    | error e => rw [happ] at hok; simp at hok
    | ok st =>
      have hpur : st.path_update_required = true := by
        rw [apply_ok_pur env g sender _ st fetched happ hfr]
        rcases hS with hS | hS
        · subst hS; rfl
        · simp [hS]
      simp only [process_commit, happ, except_bind_ok]
      exact if_pos ⟨hpur, hpath⟩
  · intro hne hnur
    have happ := apply_proposals_no_ur env g sender _ fetched hfr hnur
    have hempty : fetched.isEmpty = false := by
      cases fetched with
      | nil => exact absurd rfl hne
      | cons a l => rfl
    simp only [process_commit, happ, except_bind_ok, hempty,
      Bool.false_eq_true, hpath]
    rfl

/-- Witness for C2 at concrete inputs: a cached Remove proposal makes the
concrete group's pathless commit fail with `InvalidCommit`, and an Add-only
received commit without a path is processed successfully. -/
theorem claim_C2_witness :
    commit_proposals toy_env
        { toy_group with proposals := [([7], ⟨Proposal.remove 1, 0⟩)] } []
        false = Except.error .invalid_commit ∧
    is_ok (process_commit toy_env toy_group 0 none
      ⟨[1], 5, 0, ⟨[ProposalOrRef.proposal (Proposal.add (toy_kp 3))], none⟩⟩
      [9]) = true := by
  constructor
  · exact (claim_C2 toy_env
      { toy_group with proposals := [([7], ⟨Proposal.remove 1, 0⟩)] } [] 0
      ⟨[1], 5, 0, ⟨[], none⟩⟩ [9] none
      [⟨Proposal.remove 1, 0⟩] [] (by decide) (by decide) (by decide)
      (by decide)).1 (Or.inr (by decide)) (by decide)
  · exact (claim_C2 toy_env toy_group [] 0
      ⟨[1], 5, 0, ⟨[ProposalOrRef.proposal (Proposal.add (toy_kp 3))], none⟩⟩
      [9] none [] [⟨Proposal.add (toy_kp 3), 0⟩] (by decide) (by decide)
      (by decide) (by decide)).2.2.2 (by decide) (by decide)

/-- C7 counterexample: with the concrete collaborators, sending a proposal
caches it under the plain untruncated hash of the serialized plaintext,
which differs from the 16-byte labelled hash reference computed by
`ProposalRef::from_plaintext` for the same message. -/
theorem claim_C7_counterexample :
    (send_proposal toy_env toy_group (Proposal.add (toy_kp 9))).1.proposals =
      [([3], ⟨Proposal.add (toy_kp 9), 0⟩)] ∧
    proposal_ref_from_plaintext toy_env false
        (send_proposal toy_env toy_group (Proposal.add (toy_kp 9))).2 ≠
      [3] := by
  constructor
  · decide
  · decide

/-- C7 (amended): `ProposalRef::from_plaintext` is the labelled hash of
the framed authenticated content truncated to 16 bytes, deterministically;
but `Group::send_proposal` keys the proposal cache by the untruncated,
unlabelled hash of the whole serialized plaintext, and it is those cache
keys (not the 16-byte references) that `commit_proposals` emits as
`ProposalOrRef::Reference` values. -/
theorem claim_C7 (env : GroupEnv) (g : Group) (p : Proposal) :
    (send_proposal env g p).1.proposals =
      (env.hash (env.ser_plaintext (send_proposal env g p).2),
        (⟨p, g.private_tree.self_index⟩ : PendingProposal)) :: g.proposals ∧
    (∀ enc pt, proposal_ref_from_plaintext env enc pt =
      (env.hash (env.ser_content_auth enc pt ++
        mls_proposal_reference_label)).take 16) ∧
    (∀ inl up pc c, commit_proposals env g inl up = Except.ok pc →
      pc.plaintext.content = Content.commit c →
      c.proposals = (g.proposals.map fun kv => ProposalOrRef.reference kv.1) ++
        inl.map ProposalOrRef.proposal) := by
  refine ⟨rfl, fun enc pt => rfl, ?_⟩
  intro inl up pc c hok hcontent
  simp only [commit_proposals] at hok
  cases happ : apply_proposals env g g.private_tree.self_index
      ((g.proposals.map fun kv => ProposalOrRef.reference kv.1) ++
        inl.map ProposalOrRef.proposal) with
  | error e => rw [happ] at hok; simp at hok
  | ok prov =>
    rw [happ] at hok
    simp only [except_bind_ok] at hok
    by_cases hguard : prov.path_update_required = true ∧ up = false
    · rw [if_pos hguard] at hok; simp at hok
    · rw [if_neg hguard] at hok
      obtain ⟨pd, hpd, hk⟩ := except_bind_eq_ok _ _ _ hok
      obtain ⟨secrets, hsec, hk2⟩ := except_bind_eq_ok _ _ _ hk
      injection hk2 with hk2
      subst hk2
      simp only [construct_mls_plaintext] at hcontent
      injection hcontent with hcontent
      subst hcontent
      rfl

/-- Witness for C7 (amended) at a concrete input: the amended relationship
between the cache key and the serialized plaintext holds for the concrete
group, and the hash reference identity is discharged at a concrete
message. -/
theorem claim_C7_witness :
    (send_proposal toy_env toy_group (Proposal.update (toy_kp 4))).1.proposals =
      (toy_env.hash (toy_env.ser_plaintext
          (send_proposal toy_env toy_group (Proposal.update (toy_kp 4))).2),
        (⟨Proposal.update (toy_kp 4), 0⟩ : PendingProposal)) ::
        toy_group.proposals ∧
    proposal_ref_from_plaintext toy_env true
        (send_proposal toy_env toy_group (Proposal.update (toy_kp 4))).2 =
      (toy_env.hash (toy_env.ser_content_auth true
        (send_proposal toy_env toy_group (Proposal.update (toy_kp 4))).2 ++
        mls_proposal_reference_label)).take 16 :=
  ⟨(claim_C7 toy_env toy_group (Proposal.update (toy_kp 4))).1,
    (claim_C7 toy_env toy_group (Proposal.update (toy_kp 4))).2.1 true
      (send_proposal toy_env toy_group (Proposal.update (toy_kp 4))).2⟩



end MlsSpec
